import Mathlib

/-! Powercom transmitter: encoders and modulator tick handlers.

A shallow embedding of `src/powercom_send.c`.

* The process-global `state` struct becomes the structure `State`; the signal
  handlers `ask_timer_cb` and `psk_timer_cb` become functions on it, one call
  per timer tick.
* The configuration globals (`bit_periods`, `cfg_modulation`,
  `cfg_bits_per_symbol`) are collected in `Config`.
* `frame_t` is `uint32_t` and `event_cnt` is `unsigned int`: both are natural
  numbers reduced modulo `2 ^ 32` wherever the C arithmetic can wrap.
* The pointer `state.frames` is `none` for `NULL` and otherwise the list of
  frames from the pointed-to position onwards, so `frames++` is `List.tail`.
-/

namespace Powercom

/-! ## Machine words -/

/-- Reduction to a `uint32_t` / `unsigned int` value. -/
def u32 (x : Nat) : Nat := x % 2 ^ 32

/-- Reduction to a `uint8_t` value. -/
def u8 (x : Nat) : Nat := x % 2 ^ 8

/-- Reduction to a `size_t` value (64 bit). -/
def usize (x : Nat) : Nat := x % 2 ^ 64

/-! ## Configuration and modulator state -/

/-- The anonymous enum of `cfg_modulation`. -/
inductive Modulation where
  | MOD_ASK
  | MOD_PSK
  | MOD_DPSK
  deriving DecidableEq, Repr

/-- The modulation globals read by the timer handlers. `bit_periods` and
`cfg_bits_per_symbol` are C `int`s that `main` only accepts when positive. -/
structure Config where
  bit_periods : Nat
  cfg_modulation : Modulation
  cfg_bits_per_symbol : Nat
  deriving DecidableEq, Repr

/-- The global `state` struct. `have_lock` and `done` are `sig_atomic_t` flags
that only ever hold `false` or `true`. -/
structure State where
  have_lock : Bool
  done : Bool
  frames : Option (List Nat)
  frame_cnt : Nat
  frame_len : Nat
  bit_mask : Nat
  symbol : Nat
  event_cnt : Nat
  deriving DecidableEq, Repr

/-- The commanded line state of the specification: the glossary defines
have-lock as "load not asserted", so `load_asserted` is the negation of
`have_lock`. -/
def load_asserted (s : State) : Bool := !s.have_lock

/-- The macro `EVENTS_PER_PERIOD`, `(1 << cfg_bits_per_symbol)`. -/
def EVENTS_PER_PERIOD (c : Config) : Nat := 1 <<< c.cfg_bits_per_symbol

/-- The expression `(1 << (state.frame_len - 1))` stored into the `uint32_t`
field `bit_mask`. The C shift is defined for `1 ≤ frame_len ≤ 32` only (for
`frame_len = 32` the `int` result is taken in two's complement). -/
def first_bit_mask (frame_len : Nat) : Nat := u32 (1 <<< (frame_len - 1))

/-- The "Init state" block of `powercom_transmit` (lines 289-299). -/
def powercom_transmit_init (frames : Option (List Nat)) (frame_cnt frame_len : Nat) : State :=
  { have_lock := true
    done := false
    frames := frames
    frame_cnt := frame_cnt
    frame_len := frame_len
    bit_mask := first_bit_mask frame_len
    symbol := 0
    event_cnt := 0 }

/-- The test `state.frames[0] & state.bit_mask` of both handlers. It is only
evaluated when `frames` is non-null and `frame_cnt` is non-zero; a read past the
end of the frame array, which the handlers never perform, is given the value 0. -/
def cur_bit (s : State) : Bool :=
  match s.frames with
  | none => false
  | some fs => (fs.headD 0 &&& s.bit_mask) != 0

/-- The bit-cursor advance that both handlers contain verbatim (lines 150-155
and 184-189): shift the mask right and, when it becomes zero, reload it and
step to the next frame. Both occurrences are guarded by `frame_cnt != 0`, so
the decrement never wraps. -/
def next_bit (s : State) : State :=
  let m := s.bit_mask >>> 1
  if m = 0 then
    { s with
      bit_mask := first_bit_mask s.frame_len
      frames := s.frames.map List.tail
      frame_cnt := s.frame_cnt - 1 }
  else
    { s with bit_mask := m }

/-! ## ASK tick handler -/

/-- The signal handler `ask_timer_cb` (lines 99-157), one timer tick. -/
def ask_timer_cb (bit_periods : Nat) (s : State) : State :=
  if s.frames = none then
    -- test signal
    if s.have_lock then { s with have_lock := false } else { s with have_lock := true }
  else if s.frame_cnt = 0 ∨ s.frames = none then
    { s with have_lock := false, done := true }
  else
    let s1 : State :=
      if cur_bit s then
        if s.have_lock then { s with have_lock := false } else { s with have_lock := true }
      else
        if !s.have_lock then { s with have_lock := true } else s
    let s2 : State := { s1 with event_cnt := u32 (s1.event_cnt + 1) }
    if s2.event_cnt ≥ u32 (bit_periods * 2) then
      next_bit { s2 with event_cnt := 0 }
    else
      s2

/-- The state after `t` ticks of the ASK timer. -/
def ask_run (bit_periods : Nat) : Nat → State → State
  | 0, s => s
  | t + 1, s => ask_timer_cb bit_periods (ask_run bit_periods t s)

/-! ## PSK / DPSK tick handler -/

/-- One iteration of the loop `for (i = 0; i < cfg_bits_per_symbol; i++)`
(lines 177-191) on the pair of the state and the local `uint8_t new_bits`. -/
def psk_select_bit (p : State × Nat) : State × Nat :=
  let s := p.1
  let new_bits := u8 (p.2 <<< 1)
  if s.frame_cnt ≠ 0 then
    (next_bit s, if cur_bit s then new_bits ||| 1 else new_bits)
  else
    (s, new_bits)

/-- The whole loop of lines 176-191, started with `new_bits = 0`: the state
with the advanced cursor and the value of `new_bits`. -/
def psk_select_bits (c : Config) (s : State) : State × Nat :=
  psk_select_bit^[c.cfg_bits_per_symbol] (s, 0)

/-- The condition under which a tick of `psk_timer_cb` reaches the loop that
pulls bits from the queue (a symbol boundary with frames remaining). -/
def psk_pulls (c : Config) (s : State) : Bool :=
  !s.done && u32 (EVENTS_PER_PERIOD c * c.bit_periods) != 0 &&
    s.event_cnt % u32 (EVENTS_PER_PERIOD c * c.bit_periods) == 0 &&
    !(s.frame_cnt == 0 || s.frames == none)

/-- The carrier rule of lines 209-216: the value stored in `have_lock`. -/
def psk_carrier (c : Config) (s : State) : Bool :=
  let phase := u32 (s.symbol * EVENTS_PER_PERIOD c / (1 <<< c.cfg_bits_per_symbol))
  decide (u32 (s.event_cnt + phase) % u32 (EVENTS_PER_PERIOD c) < u32 (EVENTS_PER_PERIOD c / 2))

/-- The tail of `psk_timer_cb` (lines 206-222): store the carrier level in
`have_lock` and count the tick. -/
def psk_generate_carrier (c : Config) (s : State) : State :=
  { s with have_lock := psk_carrier c s, event_cnt := u32 (s.event_cnt + 1) }

/-- The signal handler `psk_timer_cb` (lines 159-223), one timer tick. The
result is `none` when the handler divides by zero, which happens when the
product `EVENTS_PER_PERIOD * bit_periods` is zero as a machine word. -/
def psk_timer_cb (c : Config) (s : State) : Option State :=
  if s.done then some s
  else if u32 (EVENTS_PER_PERIOD c * c.bit_periods) = 0 then none
  else if s.event_cnt % u32 (EVENTS_PER_PERIOD c * c.bit_periods) = 0 then
    if s.frame_cnt = 0 ∨ s.frames = none then
      some { s with have_lock := false, done := true }
    else
      let r := psk_select_bits c s
      let s1 : State :=
        if c.cfg_modulation = Modulation.MOD_DPSK then
          { r.1 with symbol := u8 (r.1.symbol + r.2) % (1 <<< c.cfg_bits_per_symbol) }
        else
          { r.1 with symbol := r.2 }
      some (psk_generate_carrier c s1)
  else
    some (psk_generate_carrier c s)

/-- The state after `t` ticks of the PSK timer, if no tick trapped. -/
def psk_run (c : Config) : Nat → State → Option State
  | 0, s => some s
  | t + 1, s => (psk_run c t s).bind (psk_timer_cb c)

/-- The values of `new_bits` pulled from the queue by the first `t` ticks of
the PSK timer, oldest first: one entry per tick that reached the loop. -/
def psk_pulled (c : Config) : Nat → State → List Nat
  | 0, _ => []
  | t + 1, s =>
    match psk_run c t s with
    | some st =>
      if psk_pulls c st then psk_pulled c t s ++ [(psk_select_bits c st).2]
      else psk_pulled c t s
    | none => psk_pulled c t s

/-! ## Encoders -/

/-- What a `send_buf_*` encoder does with its input: it calls
`powercom_transmit frames frame_cnt frame_len`, or it stops at the failed
`assert`, or it returns early because `calloc` gave `NULL`. -/
inductive SendOutcome where
  | transmit (frames : List Nat) (frame_cnt frame_len : Nat)
  | assert_failed
  | calloc_failed
  deriving DecidableEq, Repr

/-- The macro `PREAMBLE1`. -/
def PREAMBLE1 : Nat := 0xaa

/-- The macro `PREAMBLE2`. -/
def PREAMBLE2 : Nat := 0xa1

/-- The encoder `send_buf_packet` (lines 434-459). `buf` holds the `len`
bytes of the input (`uint8_t`, so every element is below 256) and `calloc_ok`
says whether the allocation succeeds. -/
def send_buf_packet (calloc_ok : Bool) (buf : List Nat) : SendOutcome :=
  let len := buf.length
  let frame_cnt := usize (2 + 1 + len)
  if ¬ (len ≤ 0xff) then SendOutcome.assert_failed
  else if ¬ calloc_ok then SendOutcome.calloc_failed
  else SendOutcome.transmit ([PREAMBLE1, PREAMBLE2, u32 len] ++ buf) frame_cnt 8

/-! ## The bit stream of a frame sequence -/

/-- Bit `p` of the most-significant-bit-first concatenation of the frames
`fs`, each of width `W`; positions past the end of the stream read as 0. -/
def stream_bit (fs : List Nat) (W p : Nat) : Bool :=
  decide (p < fs.length * W) && (fs.getD (p / W) 0).testBit (W - 1 - p % W)

/-- The bit stream of the frames `fs` of width `W`, most significant bit of
each frame first. -/
def bit_stream (fs : List Nat) (W : Nat) : List Bool :=
  (List.range (fs.length * W)).map (stream_bit fs W)

/-- The number whose binary digits, most significant first, are `bs`. -/
def bits_value (bs : List Bool) : Nat :=
  bs.foldl (fun a b => 2 * a + b.toNat) 0

/-- The `i`-th group of `k` bits of the bit stream, as a number. -/
def stream_symbol (fs : List Nat) (W k i : Nat) : Nat :=
  bits_value ((List.range k).map (fun j => stream_bit fs W (i * k + j)))

/-- Decoding of a bit list as consecutive groups of `W` bits, each read most
significant bit first (the receiving side of the raw encoding). -/
def decode_bits (W : Nat) (bits : List Bool) : List Nat :=
  (List.range (bits.length / W)).map (fun i => bits_value ((bits.drop (i * W)).take W))

/-! ## The RS-232 and raw encoders -/

/-- The macro `BITS_PER_FRAME`. -/
def BITS_PER_FRAME : Nat := 7

/-- The macro `STOP_BITS`. -/
def STOP_BITS : Nat := 1

/-- The macro `FRAME_LEN`, `(1 + BITS_PER_FRAME + STOP_BITS)`. -/
def FRAME_LEN : Nat := 1 + BITS_PER_FRAME + STOP_BITS

/-- The body of the loop of `send_buf_rs232` (lines 479-485): the `frame_t`
built from the byte `b`. -/
def rs232_frame (b : Nat) : Nat :=
  let frame0 : Nat := 0x1
  let frame1 := u32 (u32 (frame0 <<< BITS_PER_FRAME) ||| (b &&& ((1 <<< BITS_PER_FRAME) - 1)))
  u32 (frame1 <<< STOP_BITS)

/-- The encoder `send_buf_rs232` (lines 465-491). -/
def send_buf_rs232 (calloc_ok : Bool) (buf : List Nat) : SendOutcome :=
  if ¬ calloc_ok then SendOutcome.calloc_failed
  else SendOutcome.transmit (buf.map rs232_frame) buf.length FRAME_LEN

/-- The encoder `send_buf_raw` (lines 493-513). -/
def send_buf_raw (calloc_ok : Bool) (buf : List Nat) : SendOutcome :=
  if ¬ calloc_ok then SendOutcome.calloc_failed
  else SendOutcome.transmit buf buf.length 8

/-! ## Timer intervals -/

/-- The macro `SEC_AS_NSEC`, `(1000 * 1000 * 1000)`, an `int`. -/
def SEC_AS_NSEC : Nat := 1000 * 1000 * 1000

/-- The macro `HZ_TO_NSEC(F)`, `(SEC_AS_NSEC / F)`, on a positive `int`. -/
def HZ_TO_NSEC (F : Nat) : Nat := SEC_AS_NSEC / F

/-- The `timer_interval` that `powercom_transmit` computes in its
"Per modulation configuration" switch (lines 301-320), as the pair
`(tv_sec, tv_nsec)`. -/
def powercom_transmit_interval (c : Config) (carrier_freq : Nat) : Nat × Nat :=
  match c.cfg_modulation with
  | Modulation.MOD_ASK => (0, HZ_TO_NSEC carrier_freq / 2)
  | Modulation.MOD_PSK => (0, HZ_TO_NSEC carrier_freq / EVENTS_PER_PERIOD c)
  | Modulation.MOD_DPSK => (0, HZ_TO_NSEC carrier_freq / EVENTS_PER_PERIOD c)

/-- The `it_interval` that the receiver `apc_ups_logger` programs
(`src/apc_ups_logger.c`, lines 197-203), as the pair `(tv_sec, tv_nsec)`;
`cfg_rate` is an `unsigned int`, so the `int` constant is converted to
unsigned for the division. -/
def logger_timer_interval (cfg_rate : Nat) : Nat × Nat :=
  if cfg_rate > 1 then (0, u32 SEC_AS_NSEC / cfg_rate) else (1, 0)

/-! ## Core count determination in `main` -/

/-- Conversion of a wider integer to `int` (32 bit, two's complement). -/
def to_int (v : Int) : Int := (v + 2 ^ 31) % 2 ^ 32 - 2 ^ 31

/-- Conversion of an `int` to `unsigned int`. -/
def to_unsigned (v : Int) : Nat := (v % 2 ^ 32).toNat

/-- The argument of the `-C` option: the word `all`, or a string that `strtol`
parses completely, with the `long` value it returns. -/
inductive CoreArg where
  | all
  | num (v : Int)
  deriving DecidableEq, Repr

/-- The macro `MAX_THREADS`. -/
def MAX_THREADS : Int := 32

/-- The `case 'C'` of the option loop of `main` (lines 614-625): the value left
in `cfg_core_cnt`, or `none` when `main` exits with "Invalid argument". Without
a `-C` option `cfg_core_cnt` keeps its initial value -1. -/
def parse_core_cnt : Option CoreArg → Option Int
  | none => some (-1)
  | some CoreArg.all => some (-1)
  | some (CoreArg.num v) => if to_int v < 0 then none else some (to_int v)

/-- The "Determine core count" block of `main` (lines 735-746);
`nprocessors_onln` is what `sysconf(_SC_NPROCESSORS_ONLN)` returns. The result
is `none` when `main` exits with "Unable to determine amount of processor
cores". -/
def determine_core_cnt (cfg_core_cnt nprocessors_onln : Int) : Option Int :=
  let detected : Option Int :=
    if cfg_core_cnt < 0 then
      (if to_int nprocessors_onln < 1 then none else some (to_int nprocessors_onln))
    else some cfg_core_cnt
  detected.map (fun n => if n > MAX_THREADS then MAX_THREADS else n)

/-- The value of `cfg_core_cnt` with which `main` reaches `powercom_transmit`. -/
def main_core_cnt (arg : Option CoreArg) (nprocessors_onln : Int) : Option Int :=
  (parse_core_cnt arg).bind (fun n => determine_core_cnt n nprocessors_onln)

/-! ## The receiver's sampler loop -/

/-- One iteration of the sampler loop of `apc_ups_logger` whose two ioctls
succeed (lines 216-255): the new value of the `int` counter `sample_cnt`, and
whether the iteration calls `fflush(stdout)` after writing its sample. -/
def sampler_iteration (cfg_binary : Bool) (cfg_rate : Nat) (sample_cnt : Int) : Int × Bool :=
  let cnt := to_int (sample_cnt + 1)
  (cnt, cfg_binary && to_unsigned cnt % cfg_rate == 0)

/-- The sampler loop after `n` samples, started with `sample_cnt = 0`: the
counter, and whether the `n`-th iteration flushed. -/
def sampler_run (cfg_binary : Bool) (cfg_rate : Nat) : Nat → Int × Bool
  | 0 => (0, false)
  | n + 1 => sampler_iteration cfg_binary cfg_rate (sampler_run cfg_binary cfg_rate n).1

/-! ## The input paths of `main` -/

/-- The macro `MAX_PKT_LEN`, `((uint8_t) 16)`. -/
def MAX_PKT_LEN : Nat := 16

/-- The enum of `cfg_encoding`. -/
inductive Encoding where
  | ENC_NONE
  | ENC_RS232
  | ENC_PACKET
  deriving DecidableEq, Repr

/-- The dispatcher `send_buf` (lines 516-532); `buf` holds the `len` bytes
passed. -/
def send_buf (cfg_encoding : Encoding) (calloc_ok : Bool) (buf : List Nat) : SendOutcome :=
  match cfg_encoding with
  | Encoding.ENC_PACKET => send_buf_packet calloc_ok buf
  | Encoding.ENC_RS232 => send_buf_rs232 calloc_ok buf
  | Encoding.ENC_NONE => send_buf_raw calloc_ok buf

/-- The C library function `strlen` on the characters stored in a buffer, a
terminating NUL being implied at its end. -/
def strlen (str : List Nat) : Nat := (str.takeWhile (fun ch => ch != 0)).length

/-- The bytes that `send_str` (lines 534-537) passes to `send_buf`: the first
`strlen(str)` characters of `str`. -/
def send_str_arg (str : List Nat) : List Nat := str.take (strlen str)

/-- The C library call `fread(buf, 1, size, fp)` on a file given as the list
of its unread bytes: the bytes stored in `buf` and the bytes left unread. -/
def fread (size : Nat) (stream : List Nat) : List Nat × List Nat :=
  (stream.take size, stream.drop size)

/-- The characters that `fgets` stores when it may still store `n` of them:
it stops after a newline and at the end of the stream. -/
def fgets_chars : Nat → List Nat → List Nat × List Nat
  | 0, stream => ([], stream)
  | _ + 1, [] => ([], [])
  | n + 1, ch :: rest =>
    if ch = 10 then ([ch], rest)
    else ((ch :: (fgets_chars n rest).1), (fgets_chars n rest).2)

/-- The C library call `fgets(buf, size, fp)`: `none` for the `NULL` it returns
at end of file, otherwise the at most `size - 1` characters stored before the
terminating NUL, and the rest of the stream. -/
def fgets (size : Nat) (stream : List Nat) : Option (List Nat × List Nat) :=
  if stream = [] then none else some (fgets_chars (size - 1) stream)

/-- The loop `while (!terminate && (len = fread(buf, 1, sizeof(buf), ifp)) != 0)`
of `main` (lines 768-770) with `uint8_t buf[MAX_PKT_LEN]`: the byte sequences
passed to `send_buf`, in order. `fuel` bounds the number of iterations, the
loop also ending when the SIGINT handler sets `terminate`. -/
def main_file_loop : Nat → List Nat → List (List Nat)
  | 0, _ => []
  | fuel + 1, stream =>
    if (fread MAX_PKT_LEN stream).1.length = 0 then []
    else (fread MAX_PKT_LEN stream).1 :: main_file_loop fuel (fread MAX_PKT_LEN stream).2

/-- The loop `while (!terminate && fgets(buf, sizeof(buf), stdin) != NULL)` of
`main` (lines 799-802) with `char buf[MAX_PKT_LEN]`: the byte sequences that
`send_str` passes to `send_buf`, in order. -/
def main_stdin_loop : Nat → List Nat → List (List Nat)
  | 0, _ => []
  | fuel + 1, stream =>
    match fgets MAX_PKT_LEN stream with
    | none => []
    | some r => send_str_arg r.1 :: main_stdin_loop fuel r.2

/-- The three ways in which `main` obtains what it sends (lines 752-803): the
test signal of `-t`, the contents of the file of `-f`, or standard input. -/
inductive InputSource where
  | test_signal
  | file (contents : List Nat)
  | stdin (contents : List Nat)
  deriving DecidableEq, Repr

/-- The byte sequences with which `main` calls `send_buf`, in order. The test
signal goes to `powercom_transmit` directly and never calls `send_buf`. -/
def main_send_buf_calls (fuel : Nat) : InputSource → List (List Nat)
  | InputSource.test_signal => []
  | InputSource.file contents => main_file_loop fuel contents
  | InputSource.stdin contents => main_stdin_loop fuel contents

/-- The bit cursor of `s` stands at position `p` of the bit stream of the
frames `fs` of width `W`: `p / W` frames are consumed and the mask selects bit
`W - 1 - p % W` of the current frame. -/
def QueueAt (fs : List Nat) (W : Nat) (s : State) (p : Nat) : Prop :=
  s.frames = some (fs.drop (p / W)) ∧ s.frame_cnt = fs.length - p / W ∧
    s.bit_mask = 2 ^ (W - 1 - p % W) ∧ s.frame_len = W

/-! ## Arithmetic helpers -/

theorem u32_of_lt {x : Nat} (h : x < 2 ^ 32) : u32 x = x := Nat.mod_eq_of_lt h

theorem first_bit_mask_eq {W : Nat} (h32 : W ≤ 32) (h1 : 1 ≤ W) :
    first_bit_mask W = 2 ^ (W - 1) := by
  unfold first_bit_mask
  rw [Nat.one_shiftLeft]
  apply u32_of_lt
  exact Nat.pow_lt_pow_right (by decide) (by omega)

theorem and_two_pow_ne_zero (f i : Nat) : ((f &&& 2 ^ i) != 0) = f.testBit i := by
  cases h : f.testBit i
  · have hz : f &&& 2 ^ i = 0 := by
      apply Nat.eq_of_testBit_eq
      intro j
      rw [Nat.testBit_and, Nat.testBit_two_pow, Nat.zero_testBit]
      by_cases hij : i = j
      · subst hij; simp [h]
      · simp [hij]
    simp [hz]
  · have hb : (f &&& 2 ^ i).testBit i = true := by
      rw [Nat.testBit_and, Nat.testBit_two_pow_self, h]; rfl
    have hne : f &&& 2 ^ i ≠ 0 := by
      intro hz
      rw [hz, Nat.zero_testBit] at hb
      exact Bool.noConfusion hb
    simp [hne]

theorem succ_div_mod (T t : Nat) (hT : 0 < T) :
    (t % T + 1 < T → (t + 1) / T = t / T ∧ (t + 1) % T = t % T + 1) ∧
    (¬ t % T + 1 < T → (t + 1) / T = t / T + 1 ∧ (t + 1) % T = 0) := by
  have hlt : t % T < T := Nat.mod_lt _ hT
  have hdm : T * (t / T) + t % T = t := Nat.div_add_mod t T
  constructor
  · intro h
    apply (Nat.div_mod_unique hT).2
    constructor
    · omega
    · exact h
  · intro h
    apply (Nat.div_mod_unique hT).2
    constructor
    · rw [Nat.mul_add, Nat.mul_one]; omega
    · exact hT

/-! ## The bit cursor -/

theorem queueAt_init (fs : List Nat) (W : Nat) (h1 : 1 ≤ W) (h32 : W ≤ 32) :
    QueueAt fs W (powercom_transmit_init (some fs) fs.length W) 0 := by
  refine ⟨?_, ?_, ?_, rfl⟩
  · simp [powercom_transmit_init]
  · simp [powercom_transmit_init]
  · simp [powercom_transmit_init, first_bit_mask_eq h32 h1]

theorem queueAt_frame_cnt {fs : List Nat} {W : Nat} {s : State} {p : Nat} (h1 : 1 ≤ W)
    (hq : QueueAt fs W s p) : s.frame_cnt = 0 ↔ fs.length * W ≤ p := by
  rw [hq.2.1, ← Nat.le_div_iff_mul_le h1]
  omega

theorem queueAt_cur_bit {fs : List Nat} {W : Nat} {s : State} {p : Nat} (h1 : 1 ≤ W)
    (hq : QueueAt fs W s p) (hp : p < fs.length * W) : cur_bit s = stream_bit fs W p := by
  have hlt : p / W < fs.length := (Nat.div_lt_iff_lt_mul h1).2 hp
  unfold cur_bit stream_bit
  rw [hq.1, hq.2.2.1]
  simp only [hp, decide_True, Bool.true_and]
  rw [and_two_pow_ne_zero]
  congr 1
  rw [List.drop_eq_getElem_cons hlt]
  simp [List.getD_eq_getElem?_getD, List.getElem?_eq_getElem hlt]

theorem queueAt_next_bit {fs : List Nat} {W : Nat} {s : State} {p : Nat} (h1 : 1 ≤ W)
    (h32 : W ≤ 32) (hq : QueueAt fs W s p) (hp : p < fs.length * W) :
    QueueAt fs W (next_bit s) (p + 1) := by
  obtain ⟨hf, hc, hm, hl⟩ := hq
  have hlt : p / W < fs.length := (Nat.div_lt_iff_lt_mul h1).2 hp
  have hr : p % W < W := Nat.mod_lt _ h1
  have hsd := succ_div_mod W p h1
  unfold next_bit
  by_cases hlast : p % W + 1 < W
  · obtain ⟨hd, hmod⟩ := hsd.1 hlast
    have hshift : s.bit_mask >>> 1 = 2 ^ (W - 1 - (p % W + 1)) := by
      rw [hm, Nat.shiftRight_eq_div_pow, Nat.pow_one]
      have : W - 1 - p % W = (W - 1 - (p % W + 1)) + 1 := by omega
      rw [this, Nat.pow_succ, Nat.mul_div_cancel _ (by decide : 0 < 2)]
    have hne : s.bit_mask >>> 1 ≠ 0 := by
      rw [hshift]; exact Nat.pos_iff_ne_zero.1 (Nat.pow_pos (by decide))
    simp only [hne, if_false]
    refine ⟨?_, ?_, ?_, ?_⟩
    · simpa [hd] using hf
    · simpa [hd] using hc
    · simpa [hmod] using hshift
    · exact hl
  · obtain ⟨hd, hmod⟩ := hsd.2 hlast
    have hshift : s.bit_mask >>> 1 = 0 := by
      rw [hm, Nat.shiftRight_eq_div_pow, Nat.pow_one]
      have : W - 1 - p % W = 0 := by omega
      rw [this]
      rfl
    simp only [hshift, if_true]
    refine ⟨?_, ?_, ?_, ?_⟩
    · simp only [hf, Option.map_some', List.tail_drop, hd]
    · simp only [hc, hd]; omega
    · simp only [hl, hmod, first_bit_mask_eq h32 h1, Nat.sub_zero]
    · exact hl

theorem next_bit_fields (s : State) :
    (next_bit s).have_lock = s.have_lock ∧ (next_bit s).done = s.done ∧
    (next_bit s).symbol = s.symbol ∧ (next_bit s).event_cnt = s.event_cnt ∧
    (next_bit s).frame_len = s.frame_len := by
  unfold next_bit
  by_cases h : s.bit_mask >>> 1 = 0 <;> simp [h]

/-! ## ASK: one tick and the run from the initial state -/

theorem ask_timer_cb_data (P : Nat) (s : State) (hf : s.frames ≠ none)
    (hc : s.frame_cnt ≠ 0) :
    ask_timer_cb P s =
      if u32 (P * 2) ≤ u32 (s.event_cnt + 1) then
        next_bit { s with
          have_lock := if cur_bit s then !s.have_lock else true
          event_cnt := 0 }
      else
        { s with
          have_lock := if cur_bit s then !s.have_lock else true
          event_cnt := u32 (s.event_cnt + 1) } := by
  unfold ask_timer_cb
  simp only [hf, hc, if_false, or_self, ge_iff_le]
  cases hb : cur_bit s <;> cases hl : s.have_lock <;> simp [hl]

theorem ask_timer_cb_have_lock (P : Nat) (s : State) (hf : s.frames ≠ none)
    (hc : s.frame_cnt ≠ 0) :
    (ask_timer_cb P s).have_lock = if cur_bit s then !s.have_lock else true := by
  rw [ask_timer_cb_data P s hf hc]
  split
  · rw [(next_bit_fields _).1]
  · rfl

theorem ask_timer_cb_queue {fs : List Nat} {W P : Nat} {s : State} {p : Nat}
    (h1 : 1 ≤ W) (h32 : W ≤ 32) (hP : P < 2 ^ 31)
    (hq : QueueAt fs W s p) (hp : p < fs.length * W) (he : s.event_cnt < P * 2) :
    (s.event_cnt + 1 < P * 2 →
      QueueAt fs W (ask_timer_cb P s) p ∧
        (ask_timer_cb P s).event_cnt = s.event_cnt + 1 ∧ (ask_timer_cb P s).done = s.done) ∧
    (¬ s.event_cnt + 1 < P * 2 →
      QueueAt fs W (ask_timer_cb P s) (p + 1) ∧
        (ask_timer_cb P s).event_cnt = 0 ∧ (ask_timer_cb P s).done = s.done) := by
  have hf : s.frames ≠ none := by rw [hq.1]; simp
  have hc : s.frame_cnt ≠ 0 := by
    intro h0
    have := (queueAt_frame_cnt h1 hq).1 h0
    omega
  have hT : u32 (P * 2) = P * 2 := u32_of_lt (by omega)
  have he1 : u32 (s.event_cnt + 1) = s.event_cnt + 1 := u32_of_lt (by omega)
  rw [ask_timer_cb_data P s hf hc, hT, he1]
  constructor
  · intro hlt
    rw [if_neg (by omega)]
    exact ⟨hq, rfl, rfl⟩
  · intro hge
    rw [if_pos (by omega)]
    refine ⟨queueAt_next_bit h1 h32 hq hp, ?_, ?_⟩
    · rw [(next_bit_fields _).2.2.2.1]
    · rw [(next_bit_fields _).2.1]

theorem ask_run_inv (fs : List Nat) (W P : Nat) (h1 : 1 ≤ W) (h32 : W ≤ 32)
    (hP1 : 1 ≤ P) (hP : P < 2 ^ 31) (t : Nat) (ht : t ≤ fs.length * W * (P * 2)) :
    QueueAt fs W (ask_run P t (powercom_transmit_init (some fs) fs.length W)) (t / (P * 2)) ∧
    (ask_run P t (powercom_transmit_init (some fs) fs.length W)).event_cnt = t % (P * 2) ∧
    (ask_run P t (powercom_transmit_init (some fs) fs.length W)).done = false := by
  induction t with
  | zero =>
    refine ⟨?_, ?_, ?_⟩
    · simpa [ask_run] using queueAt_init fs W h1 h32
    · simp [ask_run, powercom_transmit_init]
    · simp [ask_run, powercom_transmit_init]
  | succ t ih =>
    obtain ⟨hq, he, hd⟩ := ih (by omega)
    have hT : 0 < P * 2 := by omega
    have hp : t / (P * 2) < fs.length * W := (Nat.div_lt_iff_lt_mul hT).2 (by omega)
    have hlt : t % (P * 2) < P * 2 := Nat.mod_lt _ hT
    have hstep := ask_timer_cb_queue h1 h32 hP hq hp (by rw [he]; exact hlt)
    have hsd := succ_div_mod (P * 2) t hT
    rw [he] at hstep
    show QueueAt fs W (ask_timer_cb P _) _ ∧ (ask_timer_cb P _).event_cnt = _ ∧
      (ask_timer_cb P _).done = false
    by_cases hc : t % (P * 2) + 1 < P * 2
    · obtain ⟨h1', h2', h3'⟩ := hstep.1 hc
      obtain ⟨hd', hm'⟩ := hsd.1 hc
      rw [hd', hm']
      exact ⟨h1', h2', by rw [h3', hd]⟩
    · obtain ⟨h1', h2', h3'⟩ := hstep.2 hc
      obtain ⟨hd', hm'⟩ := hsd.2 hc
      rw [hd', hm']
      exact ⟨h1', h2', by rw [h3', hd]⟩

/-! ## PSK: pulling a symbol from the queue -/

theorem bits_value_append (l : List Bool) (b : Bool) :
    bits_value (l ++ [b]) = 2 * bits_value l + b.toNat := by
  unfold bits_value
  rw [List.foldl_append]
  rfl

theorem psk_select_bit_iterate (fs : List Nat) (W : Nat) (h1 : 1 ≤ W) (h32 : W ≤ 32)
    (s : State) (p : Nat) (hq : QueueAt fs W s p) (j : Nat) (hj : j ≤ 8) :
    QueueAt fs W (psk_select_bit^[j] (s, 0)).1 (min (p + j) (max p (fs.length * W))) ∧
    (psk_select_bit^[j] (s, 0)).2 =
      bits_value ((List.range j).map (fun i => stream_bit fs W (p + i))) ∧
    (psk_select_bit^[j] (s, 0)).2 < 2 ^ j ∧
    (psk_select_bit^[j] (s, 0)).1.have_lock = s.have_lock ∧
    (psk_select_bit^[j] (s, 0)).1.done = s.done ∧
    (psk_select_bit^[j] (s, 0)).1.symbol = s.symbol ∧
    (psk_select_bit^[j] (s, 0)).1.event_cnt = s.event_cnt := by
  induction j with
  | zero =>
    refine ⟨?_, rfl, by simp, rfl, rfl, rfl, rfl⟩
    have : min (p + 0) (max p (fs.length * W)) = p := by omega
    rw [this]
    exact hq
  | succ j ih =>
    obtain ⟨hqj, hv, hlt, hl, hd, hsy, he⟩ := ih (by omega)
    rw [Function.iterate_succ_apply']
    generalize psk_select_bit^[j] (s, 0) = r at hqj hv hlt hl hd hsy he
    have hpow : (2 : Nat) ^ j ≤ 2 ^ 7 := Nat.pow_le_pow_right (by decide) (by omega)
    have hu8 : u8 (r.2 <<< 1) = 2 * r.2 := by
      unfold u8
      rw [Nat.shiftLeft_eq, Nat.pow_one, Nat.mod_eq_of_lt (by omega)]
      omega
    rw [List.range_succ, List.map_append, List.map_singleton, bits_value_append, ← hv]
    unfold psk_select_bit
    simp only [hu8]
    by_cases hc : r.1.frame_cnt = 0
    · have hge := (queueAt_frame_cnt h1 hqj).1 hc
      have hbit : stream_bit fs W (p + j) = false := by
        unfold stream_bit
        have : ¬ p + j < fs.length * W := by omega
        simp [this]
      simp only [hc, ne_eq, not_true_eq_false, if_false, hbit, Bool.toNat_false]
      refine ⟨?_, by omega, ?_, hl, hd, hsy, he⟩
      · have : min (p + (j + 1)) (max p (fs.length * W)) =
            min (p + j) (max p (fs.length * W)) := by omega
        rw [this]
        exact hqj
      · rw [Nat.pow_succ]; omega
    · have hlt' : ¬ fs.length * W ≤ min (p + j) (max p (fs.length * W)) :=
        fun h => hc ((queueAt_frame_cnt h1 hqj).2 h)
      have hpos : min (p + j) (max p (fs.length * W)) = p + j := by omega
      rw [hpos] at hqj
      have hpj : p + j < fs.length * W := by omega
      have hcur := queueAt_cur_bit h1 hqj hpj
      have hnext := queueAt_next_bit h1 h32 hqj hpj
      have hnf := next_bit_fields r.1
      simp only [hc, ne_eq, not_false_eq_true, if_true, hcur]
      refine ⟨?_, ?_, ?_, ?_, ?_, ?_, ?_⟩
      · have : min (p + (j + 1)) (max p (fs.length * W)) = p + j + 1 := by omega
        rw [this]
        exact hnext
      · cases hb : stream_bit fs W (p + j)
        · simp
        · have hor := Nat.mul_add_lt_is_or (by decide : 1 < 2 ^ 1) r.2
          rw [Nat.pow_one] at hor
          simp [← hor]
      · have hle : (if stream_bit fs W (p + j) = true then 2 * r.2 ||| 1 else 2 * r.2)
            ≤ 2 * r.2 + 1 := by
          cases hb : stream_bit fs W (p + j)
          · simp
          · have hor := Nat.mul_add_lt_is_or (by decide : 1 < 2 ^ 1) r.2
            rw [Nat.pow_one] at hor
            simp [← hor]
        rw [Nat.pow_succ]
        omega
      · rw [hnf.1, hl]
      · rw [hnf.2.1, hd]
      · rw [hnf.2.2.1, hsy]
      · rw [hnf.2.2.2.1, he]

/-! ## PSK: one tick -/

/-- The state a pulling tick hands to the carrier generator: the cursor is
advanced past the pulled bits and `symbol` is updated from `new_bits`. -/
theorem psk_timer_cb_pull (c : Config) (s : State) (hp : psk_pulls c s = true) :
    psk_timer_cb c s = some (psk_generate_carrier c
      (if c.cfg_modulation = Modulation.MOD_DPSK then
        { (psk_select_bits c s).1 with
          symbol := u8 ((psk_select_bits c s).1.symbol + (psk_select_bits c s).2) %
            (1 <<< c.cfg_bits_per_symbol) }
      else
        { (psk_select_bits c s).1 with symbol := (psk_select_bits c s).2 })) := by
  unfold psk_pulls at hp
  simp only [Bool.and_eq_true, Bool.not_eq_true', bne_iff_ne, ne_eq, beq_iff_eq,
    Bool.or_eq_false_iff, beq_eq_false_iff_ne] at hp
  obtain ⟨⟨⟨hdone, hd⟩, hb⟩, hc, hf⟩ := hp
  unfold psk_timer_cb
  simp [hdone, hd, hb, hc, hf]

theorem psk_timer_cb_between (c : Config) (s : State) (hdone : s.done = false)
    (hd : u32 (EVENTS_PER_PERIOD c * c.bit_periods) ≠ 0)
    (hb : s.event_cnt % u32 (EVENTS_PER_PERIOD c * c.bit_periods) ≠ 0) :
    psk_timer_cb c s = some (psk_generate_carrier c s) ∧ psk_pulls c s = false := by
  constructor
  · unfold psk_timer_cb
    simp [hdone, hd, hb]
  · unfold psk_pulls
    simp [hb]

theorem psk_timer_cb_end (c : Config) (s : State) (hdone : s.done = false)
    (hd : u32 (EVENTS_PER_PERIOD c * c.bit_periods) ≠ 0)
    (hb : s.event_cnt % u32 (EVENTS_PER_PERIOD c * c.bit_periods) = 0)
    (hq : s.frame_cnt = 0 ∨ s.frames = none) :
    psk_timer_cb c s = some { s with have_lock := false, done := true } ∧
      psk_pulls c s = false := by
  constructor
  · unfold psk_timer_cb
    simp [hdone, hd, hb, hq]
  · unfold psk_pulls
    rcases hq with h | h <;> simp [h]

theorem psk_timer_cb_done (c : Config) (s : State) (hdone : s.done = true) :
    psk_timer_cb c s = some s ∧ psk_pulls c s = false := by
  constructor
  · unfold psk_timer_cb
    simp [hdone]
  · unfold psk_pulls
    simp [hdone]

theorem psk_pulls_of (c : Config) (s : State) (hdone : s.done = false)
    (hd : u32 (EVENTS_PER_PERIOD c * c.bit_periods) ≠ 0)
    (hb : s.event_cnt % u32 (EVENTS_PER_PERIOD c * c.bit_periods) = 0)
    (hc : s.frame_cnt ≠ 0) (hf : s.frames ≠ none) : psk_pulls c s = true := by
  unfold psk_pulls
  simp [hdone, hd, hb, hc, hf]

theorem psk_timer_cb_nopull (c : Config) (s : State)
    (hd : u32 (EVENTS_PER_PERIOD c * c.bit_periods) ≠ 0) (hp : psk_pulls c s = false) :
    ∃ s1, psk_timer_cb c s = some s1 ∧ s1.frames = s.frames ∧ s1.frame_cnt = s.frame_cnt ∧
      s1.bit_mask = s.bit_mask ∧ s1.frame_len = s.frame_len ∧ s1.symbol = s.symbol := by
  cases hdone : s.done
  · by_cases hb : s.event_cnt % u32 (EVENTS_PER_PERIOD c * c.bit_periods) = 0
    · by_cases hq : s.frame_cnt = 0 ∨ s.frames = none
      · exact ⟨_, (psk_timer_cb_end c s hdone hd hb hq).1, rfl, rfl, rfl, rfl, rfl⟩
      · have hq2 : s.frame_cnt ≠ 0 ∧ s.frames ≠ none := by
          constructor
          · intro h; exact hq (Or.inl h)
          · intro h; exact hq (Or.inr h)
        rw [psk_pulls_of c s hdone hd hb hq2.1 hq2.2] at hp
        exact Bool.noConfusion hp
    · exact ⟨_, (psk_timer_cb_between c s hdone hd hb).1, rfl, rfl, rfl, rfl, rfl⟩
  · exact ⟨_, (psk_timer_cb_done c s hdone).1, rfl, rfl, rfl, rfl, rfl⟩

/-! ## PSK: the run from the initial state -/

theorem psk_run_succ (c : Config) (t : Nat) (s0 s : State) (h : psk_run c t s0 = some s) :
    psk_run c (t + 1) s0 = psk_timer_cb c s ∧
    psk_pulled c (t + 1) s0 =
      if psk_pulls c s then psk_pulled c t s0 ++ [(psk_select_bits c s).2]
      else psk_pulled c t s0 := by
  constructor
  · show (psk_run c t s0).bind (psk_timer_cb c) = _
    rw [h]
    rfl
  · show (match psk_run c t s0 with
      | some st =>
        if psk_pulls c st then psk_pulled c t s0 ++ [(psk_select_bits c st).2]
        else psk_pulled c t s0
      | none => psk_pulled c t s0) = _
    rw [h]

theorem psk_run_inv (c : Config) (fs : List Nat) (W : Nat) (h1 : 1 ≤ W) (h32 : W ≤ 32)
    (hk : c.cfg_bits_per_symbol ≤ 8)
    (hd : u32 (EVENTS_PER_PERIOD c * c.bit_periods) ≠ 0) (t : Nat) :
    ∃ s, psk_run c t (powercom_transmit_init (some fs) fs.length W) = some s ∧
      QueueAt fs W s
        (min ((psk_pulled c t (powercom_transmit_init (some fs) fs.length W)).length *
          c.cfg_bits_per_symbol) (fs.length * W)) ∧
      psk_pulled c t (powercom_transmit_init (some fs) fs.length W) =
        (List.range (psk_pulled c t (powercom_transmit_init (some fs) fs.length W)).length).map
          (stream_symbol fs W c.cfg_bits_per_symbol) ∧
      (c.cfg_modulation ≠ Modulation.MOD_DPSK → s.symbol =
        ((psk_pulled c t (powercom_transmit_init (some fs) fs.length W)).getLast?).getD 0) ∧
      (c.cfg_modulation = Modulation.MOD_DPSK → s.symbol =
        (psk_pulled c t (powercom_transmit_init (some fs) fs.length W)).sum %
          2 ^ c.cfg_bits_per_symbol) := by
  induction t with
  | zero =>
    refine ⟨_, rfl, ?_, rfl, ?_, ?_⟩
    · simpa [psk_pulled] using queueAt_init fs W h1 h32
    · intro _; rfl
    · intro _; simp [psk_pulled, powercom_transmit_init]
  | succ t ih =>
    obtain ⟨s, hrun, hq, hpl, hpsk, hdpsk⟩ := ih
    obtain ⟨hrun1, hpul1⟩ := psk_run_succ c t _ s hrun
    rw [hrun1, hpul1]
    generalize psk_pulled c t (powercom_transmit_init (some fs) fs.length W) = pl
      at hq hpl hpsk hdpsk
    cases hp : psk_pulls c s
    · obtain ⟨s1, hs1, hf, hc, hm, hl, hsy⟩ := psk_timer_cb_nopull c s hd hp
      simp only [Bool.false_eq_true, if_false]
      refine ⟨s1, hs1, ?_, hpl, ?_, ?_⟩
      · exact ⟨hf.trans hq.1, hc.trans hq.2.1, hm.trans hq.2.2.1, hl.trans hq.2.2.2⟩
      · intro h; rw [hsy]; exact hpsk h
      · intro h; rw [hsy]; exact hdpsk h
    · have hp2 := hp
      unfold psk_pulls at hp2
      simp only [Bool.and_eq_true, Bool.not_eq_true', bne_iff_ne, ne_eq, beq_iff_eq,
        Bool.or_eq_false_iff, beq_eq_false_iff_ne] at hp2
      have hc : s.frame_cnt ≠ 0 := hp2.2.1
      have hlt : ¬ fs.length * W ≤ min (pl.length * c.cfg_bits_per_symbol) (fs.length * W) :=
        fun h => hc ((queueAt_frame_cnt h1 hq).2 h)
      have hpos : min (pl.length * c.cfg_bits_per_symbol) (fs.length * W) =
          pl.length * c.cfg_bits_per_symbol := by omega
      rw [hpos] at hq
      obtain ⟨hq1, hv, _, _, _, hsy, _⟩ :=
        psk_select_bit_iterate fs W h1 h32 s _ hq c.cfg_bits_per_symbol hk
      have hnew : (psk_select_bits c s).2 =
          stream_symbol fs W c.cfg_bits_per_symbol pl.length := hv
      have hpos1 : min (pl.length * c.cfg_bits_per_symbol + c.cfg_bits_per_symbol)
          (max (pl.length * c.cfg_bits_per_symbol) (fs.length * W)) =
          min ((pl.length + 1) * c.cfg_bits_per_symbol) (fs.length * W) := by
        rw [Nat.add_mul, Nat.one_mul]; omega
      rw [hpos1] at hq1
      rw [psk_timer_cb_pull c s hp]
      simp only [if_true]
      refine ⟨_, rfl, ?_, ?_, ?_, ?_⟩
      · rw [List.length_append, List.length_singleton]
        by_cases hm : c.cfg_modulation = Modulation.MOD_DPSK
        · rw [if_pos hm]; exact hq1
        · rw [if_neg hm]; exact hq1
      · rw [List.length_append, List.length_singleton, List.range_succ, List.map_append,
          List.map_singleton, ← hpl, hnew]
      · intro hm
        rw [if_neg hm]
        simp [psk_generate_carrier]
      · intro hm
        rw [if_pos hm]
        have hdvd : 2 ^ c.cfg_bits_per_symbol ∣ 2 ^ 8 := Nat.pow_dvd_pow 2 hk
        show u8 ((psk_select_bits c s).1.symbol + (psk_select_bits c s).2) %
          (1 <<< c.cfg_bits_per_symbol) = _
        have hsy2 : (psk_select_bits c s).1.symbol = s.symbol := hsy
        rw [hsy2, Nat.one_shiftLeft, List.sum_append, List.sum_singleton]
        unfold u8
        rw [Nat.mod_mod_of_dvd _ hdvd, hdpsk hm, Nat.mod_add_mod]

theorem psk_modulus_eq (c : Config) (h : c.bit_periods * 2 ^ c.cfg_bits_per_symbol < 2 ^ 32) :
    u32 (EVENTS_PER_PERIOD c * c.bit_periods) = c.bit_periods * 2 ^ c.cfg_bits_per_symbol := by
  unfold EVENTS_PER_PERIOD
  rw [Nat.one_shiftLeft, Nat.mul_comm]
  exact u32_of_lt h

theorem symbols_lt_iff (n k b : Nat) (hk : 1 ≤ k) : b < (n + k - 1) / k ↔ b * k < n := by
  rw [Nat.lt_iff_add_one_le, Nat.le_div_iff_mul_le hk, Nat.add_mul, Nat.one_mul]
  omega

/-- Without wrap-around of `event_cnt`: while symbols remain, `event_cnt`
counts the ticks, `done` stays false and one symbol has been pulled per
started period of `P * 2 ^ k` ticks. -/
theorem psk_run_nowrap (c : Config) (fs : List Nat) (W : Nat) (h1 : 1 ≤ W) (h32 : W ≤ 32)
    (hk1 : 1 ≤ c.cfg_bits_per_symbol) (hk : c.cfg_bits_per_symbol ≤ 8)
    (hP : 1 ≤ c.bit_periods)
    (hd : c.bit_periods * 2 ^ c.cfg_bits_per_symbol < 2 ^ 32) (t : Nat)
    (ht : t ≤ (fs.length * W + c.cfg_bits_per_symbol - 1) / c.cfg_bits_per_symbol *
      (c.bit_periods * 2 ^ c.cfg_bits_per_symbol))
    (ht32 : t < 2 ^ 32) :
    ∃ s, psk_run c t (powercom_transmit_init (some fs) fs.length W) = some s ∧
      s.done = false ∧ s.event_cnt = t ∧
      (psk_pulled c t (powercom_transmit_init (some fs) fs.length W)).length =
        t / (c.bit_periods * 2 ^ c.cfg_bits_per_symbol) +
          (if t % (c.bit_periods * 2 ^ c.cfg_bits_per_symbol) = 0 then 0 else 1) := by
  have hdpos : 0 < c.bit_periods * 2 ^ c.cfg_bits_per_symbol :=
    Nat.mul_pos hP (Nat.pow_pos (by decide))
  have hmod := psk_modulus_eq c hd
  have hd0 : u32 (EVENTS_PER_PERIOD c * c.bit_periods) ≠ 0 := by rw [hmod]; omega
  induction t with
  | zero =>
    refine ⟨_, rfl, rfl, rfl, ?_⟩
    simp [psk_pulled]
  | succ t ih =>
    obtain ⟨s, hrun, hdone, he, hlen⟩ := ih (by omega) (by omega)
    obtain ⟨s2, hrun2, hq, _, _, _⟩ := psk_run_inv c fs W h1 h32 hk hd0 t
    have hs : s2 = s := by
      rw [hrun] at hrun2
      exact (Option.some.inj hrun2).symm
    subst hs
    obtain ⟨hrun1, hpul1⟩ := psk_run_succ c t _ s2 hrun
    rw [hrun1, hpul1]
    have hsd := succ_div_mod (c.bit_periods * 2 ^ c.cfg_bits_per_symbol) t hdpos
    have he1 : u32 (t + 1) = t + 1 := u32_of_lt ht32
    by_cases hb : t % (c.bit_periods * 2 ^ c.cfg_bits_per_symbol) = 0
    · rw [if_pos hb, Nat.add_zero] at hlen
      have hlt : t / (c.bit_periods * 2 ^ c.cfg_bits_per_symbol) <
          (fs.length * W + c.cfg_bits_per_symbol - 1) / c.cfg_bits_per_symbol :=
        (Nat.div_lt_iff_lt_mul hdpos).2 (by omega)
      rw [symbols_lt_iff _ _ _ hk1, ← hlen] at hlt
      rw [Nat.min_eq_left (Nat.le_of_lt hlt)] at hq
      have hc : s2.frame_cnt ≠ 0 := by
        intro h0
        have := (queueAt_frame_cnt h1 hq).1 h0
        omega
      have hf : s2.frames ≠ none := by rw [hq.1]; simp
      have hp : psk_pulls c s2 = true :=
        psk_pulls_of c s2 hdone hd0 (by rw [hmod, he]; exact hb) hc hf
      obtain ⟨_, _, _, _, hdn, _, hev⟩ :=
        psk_select_bit_iterate fs W h1 h32 s2 _ hq c.cfg_bits_per_symbol hk
      rw [psk_timer_cb_pull c s2 hp, hp]
      simp only [if_true]
      refine ⟨_, rfl, ?_, ?_, ?_⟩
      · by_cases hm : c.cfg_modulation = Modulation.MOD_DPSK
        · rw [if_pos hm]; exact hdn.trans hdone
        · rw [if_neg hm]; exact hdn.trans hdone
      · have hev2 : (psk_select_bits c s2).1.event_cnt = t := hev.trans he
        by_cases hm : c.cfg_modulation = Modulation.MOD_DPSK
        · rw [if_pos hm]
          show u32 ((psk_select_bits c s2).1.event_cnt + 1) = t + 1
          rw [hev2, he1]
        · rw [if_neg hm]
          show u32 ((psk_select_bits c s2).1.event_cnt + 1) = t + 1
          rw [hev2, he1]
      · rw [List.length_append, List.length_singleton, hlen]
        by_cases h1d : t % (c.bit_periods * 2 ^ c.cfg_bits_per_symbol) + 1 <
            c.bit_periods * 2 ^ c.cfg_bits_per_symbol
        · obtain ⟨hq', hm'⟩ := hsd.1 h1d
          rw [hq', hm', if_neg (by omega)]
        · obtain ⟨hq', hm'⟩ := hsd.2 h1d
          rw [hq', hm', if_pos rfl]
    · rw [if_neg hb] at hlen
      obtain ⟨hcb, hnp⟩ := psk_timer_cb_between c s2 hdone hd0 (by rw [hmod, he]; exact hb)
      rw [hcb, hnp]
      simp only [Bool.false_eq_true, if_false]
      refine ⟨_, rfl, hdone, ?_, ?_⟩
      · show u32 (s2.event_cnt + 1) = t + 1
        rw [he, he1]
      · rw [hlen]
        by_cases h1d : t % (c.bit_periods * 2 ^ c.cfg_bits_per_symbol) + 1 <
            c.bit_periods * 2 ^ c.cfg_bits_per_symbol
        · obtain ⟨hq', hm'⟩ := hsd.1 h1d
          rw [hq', hm', if_neg (by omega)]
        · obtain ⟨hq', hm'⟩ := hsd.2 h1d
          rw [hq', hm', if_pos rfl]

theorem psk_pull_value (c : Config) (fs : List Nat) (W : Nat) (h1 : 1 ≤ W) (h32 : W ≤ 32)
    (hk : c.cfg_bits_per_symbol ≤ 8)
    (hd : u32 (EVENTS_PER_PERIOD c * c.bit_periods) ≠ 0) (t : Nat) (s : State)
    (hrun : psk_run c t (powercom_transmit_init (some fs) fs.length W) = some s)
    (hp : psk_pulls c s = true) :
    (psk_select_bits c s).2 = stream_symbol fs W c.cfg_bits_per_symbol
      (psk_pulled c t (powercom_transmit_init (some fs) fs.length W)).length := by
  obtain ⟨s2, hrun2, hq, _, _, _⟩ := psk_run_inv c fs W h1 h32 hk hd t
  have hs : s2 = s := by
    rw [hrun] at hrun2
    exact (Option.some.inj hrun2).symm
  subst hs
  have hp2 := hp
  unfold psk_pulls at hp2
  simp only [Bool.and_eq_true, Bool.not_eq_true', bne_iff_ne, ne_eq, beq_iff_eq,
    Bool.or_eq_false_iff, beq_eq_false_iff_ne] at hp2
  have hc : s2.frame_cnt ≠ 0 := hp2.2.1
  generalize psk_pulled c t (powercom_transmit_init (some fs) fs.length W) = pl at hq
  have hlt : ¬ fs.length * W ≤ min (pl.length * c.cfg_bits_per_symbol) (fs.length * W) :=
    fun h => hc ((queueAt_frame_cnt h1 hq).2 h)
  have hpos : min (pl.length * c.cfg_bits_per_symbol) (fs.length * W) =
      pl.length * c.cfg_bits_per_symbol := by omega
  rw [hpos] at hq
  exact (psk_select_bit_iterate fs W h1 h32 s2 _ hq c.cfg_bits_per_symbol hk).2.1

theorem psk_nowrap_pulls (c : Config) (fs : List Nat) (W : Nat) (h1 : 1 ≤ W) (h32 : W ≤ 32)
    (hk1 : 1 ≤ c.cfg_bits_per_symbol) (hk : c.cfg_bits_per_symbol ≤ 8)
    (hP : 1 ≤ c.bit_periods)
    (hd : c.bit_periods * 2 ^ c.cfg_bits_per_symbol < 2 ^ 32) (t : Nat)
    (ht : t ≤ (fs.length * W + c.cfg_bits_per_symbol - 1) / c.cfg_bits_per_symbol *
      (c.bit_periods * 2 ^ c.cfg_bits_per_symbol))
    (ht32 : t < 2 ^ 32) :
    ∃ s, psk_run c t (powercom_transmit_init (some fs) fs.length W) = some s ∧
      s.done = false ∧ s.event_cnt = t ∧
      (psk_pulls c s = true ↔
        (t % (c.bit_periods * 2 ^ c.cfg_bits_per_symbol) = 0 ∧
          t < (fs.length * W + c.cfg_bits_per_symbol - 1) / c.cfg_bits_per_symbol *
            (c.bit_periods * 2 ^ c.cfg_bits_per_symbol))) ∧
      (s.frame_cnt = 0 ↔
        (fs.length * W + c.cfg_bits_per_symbol - 1) / c.cfg_bits_per_symbol ≤
          (psk_pulled c t (powercom_transmit_init (some fs) fs.length W)).length) := by
  have hdpos : 0 < c.bit_periods * 2 ^ c.cfg_bits_per_symbol :=
    Nat.mul_pos hP (Nat.pow_pos (by decide))
  have hmod := psk_modulus_eq c hd
  have hd0 : u32 (EVENTS_PER_PERIOD c * c.bit_periods) ≠ 0 := by rw [hmod]; omega
  obtain ⟨s, hrun, hdone, he, hlen⟩ := psk_run_nowrap c fs W h1 h32 hk1 hk hP hd t ht ht32
  obtain ⟨s2, hrun2, hq, _, _, _⟩ := psk_run_inv c fs W h1 h32 hk hd0 t
  have hs : s2 = s := by
    rw [hrun] at hrun2
    exact (Option.some.inj hrun2).symm
  subst hs
  have hf : s2.frames ≠ none := by rw [hq.1]; simp
  have hcnt : s2.frame_cnt = 0 ↔
      (fs.length * W + c.cfg_bits_per_symbol - 1) / c.cfg_bits_per_symbol ≤
        (psk_pulled c t (powercom_transmit_init (some fs) fs.length W)).length := by
    rw [queueAt_frame_cnt h1 hq]
    have := symbols_lt_iff (fs.length * W) c.cfg_bits_per_symbol
      (psk_pulled c t (powercom_transmit_init (some fs) fs.length W)).length hk1
    omega
  refine ⟨s2, hrun, hdone, he, ?_, hcnt⟩
  constructor
  · intro hp
    unfold psk_pulls at hp
    simp only [Bool.and_eq_true, Bool.not_eq_true', bne_iff_ne, ne_eq, beq_iff_eq,
      Bool.or_eq_false_iff, beq_eq_false_iff_ne] at hp
    have hb : t % (c.bit_periods * 2 ^ c.cfg_bits_per_symbol) = 0 := by
      have := hp.1.2
      rwa [hmod, he] at this
    refine ⟨hb, ?_⟩
    rw [if_pos hb, Nat.add_zero] at hlen
    have hnc : ¬ (fs.length * W + c.cfg_bits_per_symbol - 1) / c.cfg_bits_per_symbol ≤
        (psk_pulled c t (powercom_transmit_init (some fs) fs.length W)).length :=
      fun h => hp.2.1 (hcnt.2 h)
    rw [hlen] at hnc
    exact (Nat.div_lt_iff_lt_mul hdpos).1 (by omega)
  · intro ⟨hb, hlt⟩
    rw [if_pos hb, Nat.add_zero] at hlen
    have hdl := (Nat.div_lt_iff_lt_mul hdpos).2 hlt
    have hc : s2.frame_cnt ≠ 0 := by
      intro h0
      have := hcnt.1 h0
      omega
    exact psk_pulls_of c s2 hdone hd0 (by rw [hmod, he]; exact hb) hc hf

theorem psk_select_bit_iterate_fields (s : State) (a j : Nat) :
    (psk_select_bit^[j] (s, a)).1.event_cnt = s.event_cnt ∧
    (psk_select_bit^[j] (s, a)).1.done = s.done := by
  induction j with
  | zero => exact ⟨rfl, rfl⟩
  | succ j ih =>
    rw [Function.iterate_succ_apply']
    generalize psk_select_bit^[j] (s, a) = r at ih
    unfold psk_select_bit
    by_cases hc : r.1.frame_cnt = 0
    · simpa [hc] using ih
    · simp only [hc, ne_eq, not_false_eq_true, if_true]
      rw [(next_bit_fields r.1).2.2.2.1, (next_bit_fields r.1).2.1]
      exact ih

theorem psk_carrier_eq (c : Config) (x : State) (hk : c.cfg_bits_per_symbol ≤ 31) :
    psk_carrier c x =
      decide ((x.event_cnt + x.symbol * 2 ^ c.cfg_bits_per_symbol / 2 ^ c.cfg_bits_per_symbol) %
        2 ^ c.cfg_bits_per_symbol < 2 ^ c.cfg_bits_per_symbol / 2) := by
  have hlt : 2 ^ c.cfg_bits_per_symbol < 2 ^ 32 :=
    Nat.pow_lt_pow_right (by decide) (by omega)
  have hdvd : 2 ^ c.cfg_bits_per_symbol ∣ 2 ^ 32 := Nat.pow_dvd_pow 2 (by omega)
  have h1 : u32 (2 ^ c.cfg_bits_per_symbol) = 2 ^ c.cfg_bits_per_symbol := u32_of_lt hlt
  have h2 : u32 (2 ^ c.cfg_bits_per_symbol / 2) = 2 ^ c.cfg_bits_per_symbol / 2 :=
    u32_of_lt (by omega)
  unfold psk_carrier EVENTS_PER_PERIOD
  simp only [Nat.one_shiftLeft, h1, h2]
  congr 1
  unfold u32
  rw [Nat.mod_mod_of_dvd _ hdvd, Nat.add_mod, Nat.mod_mod_of_dvd _ hdvd, ← Nat.add_mod]

/-! ## Claims on the packet encoder and the ASK handler -/

/-- C1: for every byte sequence `b` of at most 255 bytes, `send_buf_packet`
(when its allocation succeeds) calls `powercom_transmit` with exactly
`3 + |b|` frames of width 8, namely `0xAA, 0xA1, |b|` followed by the bytes of
`b` unaltered; for `b = [0x41]` the frames are `[0xAA, 0xA1, 0x01, 0x41]` and
their MSB-first bit stream is `10101010 10100001 00000001 01000001`. -/
theorem send_buf_packet_frames (b : List Nat) (h : b.length ≤ 255) :
    send_buf_packet true b =
        SendOutcome.transmit ([0xAA, 0xA1, b.length] ++ b) (3 + b.length) 8 ∧
      ([0xAA, 0xA1, b.length] ++ b).length = 3 + b.length ∧
      (∀ i, i < b.length → ([0xAA, 0xA1, b.length] ++ b)[3 + i]? = b[i]?) ∧
      send_buf_packet true [0x41] = SendOutcome.transmit [0xAA, 0xA1, 0x01, 0x41] 4 8 ∧
      bit_stream [0xAA, 0xA1, 0x01, 0x41] 8 =
        [true, false, true, false, true, false, true, false,
         true, false, true, false, false, false, false, true,
         false, false, false, false, false, false, false, true,
         false, true, false, false, false, false, false, true] := by
  refine ⟨?_, ?_, ?_, ?_, ?_⟩
  · have h1 : u32 b.length = b.length := u32_of_lt (by omega)
    have h2 : usize (2 + 1 + b.length) = 3 + b.length := by
      unfold usize
      rw [Nat.mod_eq_of_lt (by omega)]
    unfold send_buf_packet
    simp only [h1, h2, PREAMBLE1, PREAMBLE2]
    rw [if_neg (by omega), if_neg (by simp)]
  · simp; omega
  · intro i _
    have : 3 + i = i + 3 := by omega
    rw [this]
    simp
  · decide
  · decide

/-- Witness: the packet encoder on the two-byte input `[0x48, 0x69]`. -/
theorem send_buf_packet_frames_witness :
    send_buf_packet true [0x48, 0x69] =
      SendOutcome.transmit ([0xAA, 0xA1, 2] ++ [0x48, 0x69]) (3 + 2) 8 :=
  (send_buf_packet_frames [0x48, 0x69] (by decide)).1

/-- C2: ASK sends the frames left to right and each frame most significant bit
first. From the state set up by `powercom_transmit` for the frames `fs` of
width `W` (`1 ≤ W ≤ 32`) with `bit_periods = P ≥ 1` (an `int`), on tick `t`
(0-based, `t < n * W * 2 * P`) the handler finds frames remaining, its frame
pointer stands at frame `j / W` and its mask at bit `W - 1 - j % W`, where
`j = t / (2 * P)`, and the bit it tests is that bit of that frame. -/
theorem ask_msb_first (fs : List Nat) (W P t : Nat) (hW1 : 1 ≤ W) (hW32 : W ≤ 32)
    (hP1 : 1 ≤ P) (hP : P < 2 ^ 31) (ht : t < fs.length * W * 2 * P) :
    t / (2 * P) / W < fs.length ∧
    (ask_run P t (powercom_transmit_init (some fs) fs.length W)).frames =
        some (fs.drop (t / (2 * P) / W)) ∧
    (ask_run P t (powercom_transmit_init (some fs) fs.length W)).frame_cnt ≠ 0 ∧
    (ask_run P t (powercom_transmit_init (some fs) fs.length W)).bit_mask =
        2 ^ (W - 1 - t / (2 * P) % W) ∧
    cur_bit (ask_run P t (powercom_transmit_init (some fs) fs.length W)) =
        (fs.getD (t / (2 * P) / W) 0).testBit (W - 1 - t / (2 * P) % W) := by
  have hcomm : 2 * P = P * 2 := Nat.mul_comm 2 P
  have ht2 : t < fs.length * W * (P * 2) := by rw [← hcomm, ← Nat.mul_assoc]; exact ht
  obtain ⟨hq, _, _⟩ := ask_run_inv fs W P hW1 hW32 hP1 hP t (by omega)
  have hT : 0 < P * 2 := by omega
  have hp : t / (P * 2) < fs.length * W := (Nat.div_lt_iff_lt_mul hT).2 ht2
  have hb := queueAt_cur_bit hW1 hq hp
  rw [hcomm]
  refine ⟨(Nat.div_lt_iff_lt_mul hW1).2 hp, hq.1, ?_, hq.2.2.1, ?_⟩
  · intro h0
    have := (queueAt_frame_cnt hW1 hq).1 h0
    omega
  · rw [hb]
    simp [stream_bit, hp]

/-- Witness: two frames of width 8, ten carrier periods per bit, tick 170. -/
theorem ask_msb_first_witness :
    cur_bit (ask_run 10 170 (powercom_transmit_init (some [0xAA, 0xA1]) 2 8)) =
      (([0xAA, 0xA1] : List Nat).getD (170 / (2 * 10) / 8) 0).testBit
        (8 - 1 - 170 / (2 * 10) % 8) :=
  (ask_msb_first [0xAA, 0xA1] 8 10 170 (by decide) (by decide) (by decide) (by decide)
    (by decide)).2.2.2.2

/-- C3: ASK timing. For every non-null frame sequence `fs` of `n` frames of
width `W` (so `N = n * W` bits; `1 ≤ W ≤ 32` as `frame_t` has 32 bits) and
every `bit_periods = P ≥ 1` (an `int`, so `P < 2^31`), `done` is
still false after each of the first `N * P * 2` ticks and is set by tick number
`N * P * 2 + 1`; and every bit `j < N`, the last one included, gets its full
`P * 2` ticks: on each of the ticks `j * (P * 2) + e`, `e < P * 2`, the handler
finds frames remaining and tests bit `j` of the stream. -/
theorem ask_ticks_before_done (fs : List Nat) (W P : Nat) (hW1 : 1 ≤ W) (hW32 : W ≤ 32)
    (hP1 : 1 ≤ P) (hP : P < 2 ^ 31) :
    (∀ t, t ≤ fs.length * W * P * 2 →
      (ask_run P t (powercom_transmit_init (some fs) fs.length W)).done = false) ∧
    (ask_run P (fs.length * W * P * 2 + 1)
      (powercom_transmit_init (some fs) fs.length W)).done = true ∧
    (∀ j e, j < fs.length * W → e < P * 2 →
      (ask_run P (j * (P * 2) + e)
        (powercom_transmit_init (some fs) fs.length W)).frame_cnt ≠ 0 ∧
      cur_bit (ask_run P (j * (P * 2) + e)
        (powercom_transmit_init (some fs) fs.length W)) = stream_bit fs W j) := by
  have hT : 0 < P * 2 := by omega
  have hassoc : fs.length * W * P * 2 = fs.length * W * (P * 2) := Nat.mul_assoc _ _ _
  refine ⟨?_, ?_, ?_⟩
  · intro t ht
    exact (ask_run_inv fs W P hW1 hW32 hP1 hP t (by omega)).2.2
  · obtain ⟨hq, _, hd⟩ := ask_run_inv fs W P hW1 hW32 hP1 hP (fs.length * W * P * 2) (by omega)
    rw [hassoc, Nat.mul_div_cancel _ hT] at hq
    have hc := (queueAt_frame_cnt hW1 hq).2 (Nat.le_refl _)
    have hf : (ask_run P (fs.length * W * P * 2)
        (powercom_transmit_init (some fs) fs.length W)).frames ≠ none := by
      rw [hassoc, hq.1]; simp
    show (ask_timer_cb P _).done = true
    unfold ask_timer_cb
    rw [hassoc] at hf ⊢
    simp [hf, hc]
  · intro j e hj he
    have hle : j * (P * 2) + e < fs.length * W * (P * 2) := by
      calc j * (P * 2) + e < j * (P * 2) + P * 2 := by omega
        _ = (j + 1) * (P * 2) := by rw [Nat.add_mul, Nat.one_mul]
        _ ≤ fs.length * W * (P * 2) := Nat.mul_le_mul_right _ hj
    obtain ⟨hq, _, _⟩ := ask_run_inv fs W P hW1 hW32 hP1 hP (j * (P * 2) + e) (by omega)
    have hdiv : (j * (P * 2) + e) / (P * 2) = j := by
      rw [Nat.mul_comm j, Nat.mul_add_div hT, Nat.div_eq_of_lt he, Nat.add_zero]
    rw [hdiv] at hq
    refine ⟨?_, queueAt_cur_bit hW1 hq hj⟩
    intro h0
    have := (queueAt_frame_cnt hW1 hq).1 h0
    omega

/-- Witness: one frame of width 2 with `P = 1`, done is set by tick 5. -/
theorem ask_ticks_before_done_witness :
    (ask_run 1 (1 * 2 * 1 * 2 + 1) (powercom_transmit_init (some [2]) 1 2)).done = true :=
  (ask_ticks_before_done [2] 2 1 (by decide) (by decide) (by decide) (by decide)).2.1

/-- C8, as stated, fails: for a single '0' bit with `P = 10` the claim has
`load_asserted` true after each of the 20 ticks, but the handler stores
`have_lock = true`, so `load_asserted` is false already after the first tick. -/
theorem ask_zero_bit_load_counterexample :
    ¬ (∀ t, t < 20 →
      load_asserted (ask_run 10 (t + 1) (powercom_transmit_init (some [0]) 1 1)) = true) := by
  intro h
  have h0 := h 0 (by decide)
  revert h0
  decide

/-- C8, amended: from the state set up by `powercom_transmit` (frames of width
`1 ≤ W ≤ 32`, `bit_periods = P ≥ 1` an `int`), after every tick that falls in
a bit period whose data bit is 0 the handler has `have_lock`
true, that is `load_asserted` false, on each of the `P * 2` ticks of the bit
(no toggling); for a single '0' bit with `P = 10` it is false after each of the
20 ticks. -/
theorem ask_zero_bit_holds_lock (fs : List Nat) (W P t : Nat) (hW1 : 1 ≤ W) (hW32 : W ≤ 32)
    (hP1 : 1 ≤ P) (hP : P < 2 ^ 31) (ht : t < fs.length * W * (P * 2))
    (hbit : stream_bit fs W (t / (P * 2)) = false) :
    (ask_run P (t + 1) (powercom_transmit_init (some fs) fs.length W)).have_lock = true ∧
    load_asserted (ask_run P (t + 1) (powercom_transmit_init (some fs) fs.length W)) = false ∧
    (∀ u, u < 20 →
      load_asserted (ask_run 10 (u + 1) (powercom_transmit_init (some [0]) 1 1)) = false) := by
  obtain ⟨hq, _, _⟩ := ask_run_inv fs W P hW1 hW32 hP1 hP t (by omega)
  have hT : 0 < P * 2 := by omega
  have hp : t / (P * 2) < fs.length * W := (Nat.div_lt_iff_lt_mul hT).2 ht
  have hb := queueAt_cur_bit hW1 hq hp
  have hf : (ask_run P t (powercom_transmit_init (some fs) fs.length W)).frames ≠ none := by
    rw [hq.1]; simp
  have hc : (ask_run P t (powercom_transmit_init (some fs) fs.length W)).frame_cnt ≠ 0 := by
    intro h0
    have := (queueAt_frame_cnt hW1 hq).1 h0
    omega
  have hl : (ask_run P (t + 1) (powercom_transmit_init (some fs) fs.length W)).have_lock
      = true := by
    show (ask_timer_cb P _).have_lock = true
    rw [ask_timer_cb_have_lock P _ hf hc, hb, hbit]
    rfl
  refine ⟨hl, ?_, ?_⟩
  · unfold load_asserted
    rw [hl]
    rfl
  · decide

/-- Witness: the frame `0x40` of width 8 with `P = 10`; tick 0 lies in the
period of its leading 0 bit. -/
theorem ask_zero_bit_holds_lock_witness :
    load_asserted (ask_run 10 (0 + 1) (powercom_transmit_init (some [0x40]) 1 8)) = false :=
  (ask_zero_bit_holds_lock [0x40] 8 10 0 (by decide) (by decide) (by decide) (by decide)
    (by decide) (by decide)).2.1

/-- C9: every tick of `ask_timer_cb` that finds frames remaining and tests a 1
bit inverts `load_asserted`; so from the state set up by `powercom_transmit`
(frames of width `1 ≤ W ≤ 32`, `bit_periods = P ≥ 1` an `int`) every tick that falls in a bit period whose data bit is 1 inverts it, on each
of the `P * 2` ticks of the bit; for a single '1' bit with `P = 10`
`load_asserted` changes on each of the 20 ticks and is false after the 20th. -/
theorem ask_one_bit_toggles (fs : List Nat) (W P t : Nat) (hW1 : 1 ≤ W) (hW32 : W ≤ 32)
    (hP1 : 1 ≤ P) (hP : P < 2 ^ 31) (ht : t < fs.length * W * (P * 2))
    (hbit : stream_bit fs W (t / (P * 2)) = true) :
    (∀ s : State, s.frames ≠ none → s.frame_cnt ≠ 0 → cur_bit s = true →
      load_asserted (ask_timer_cb P s) = !load_asserted s) ∧
    load_asserted (ask_run P (t + 1) (powercom_transmit_init (some fs) fs.length W)) =
      !load_asserted (ask_run P t (powercom_transmit_init (some fs) fs.length W)) ∧
    (∀ u, u < 20 →
      load_asserted (ask_run 10 (u + 1) (powercom_transmit_init (some [1]) 1 1)) =
        !load_asserted (ask_run 10 u (powercom_transmit_init (some [1]) 1 1))) ∧
    load_asserted (ask_run 10 20 (powercom_transmit_init (some [1]) 1 1)) = false := by
  have hstep : ∀ s : State, s.frames ≠ none → s.frame_cnt ≠ 0 → cur_bit s = true →
      load_asserted (ask_timer_cb P s) = !load_asserted s := by
    intro s hf hc hb
    unfold load_asserted
    rw [ask_timer_cb_have_lock P s hf hc, hb]
    rfl
  obtain ⟨hq, _, _⟩ := ask_run_inv fs W P hW1 hW32 hP1 hP t (by omega)
  have hT : 0 < P * 2 := by omega
  have hp : t / (P * 2) < fs.length * W := (Nat.div_lt_iff_lt_mul hT).2 ht
  have hb := queueAt_cur_bit hW1 hq hp
  have hf : (ask_run P t (powercom_transmit_init (some fs) fs.length W)).frames ≠ none := by
    rw [hq.1]; simp
  have hc : (ask_run P t (powercom_transmit_init (some fs) fs.length W)).frame_cnt ≠ 0 := by
    intro h0
    have := (queueAt_frame_cnt hW1 hq).1 h0
    omega
  refine ⟨hstep, ?_, ?_, ?_⟩
  · exact hstep _ hf hc (by rw [hb, hbit])
  · decide
  · decide

/-- Witness: the frame `0x80` of width 8 with `P = 10`; tick 3 lies in the
period of its leading 1 bit. -/
theorem ask_one_bit_toggles_witness :
    load_asserted (ask_run 10 (3 + 1) (powercom_transmit_init (some [0x80]) 1 8)) =
      !load_asserted (ask_run 10 3 (powercom_transmit_init (some [0x80]) 1 8)) :=
  (ask_one_bit_toggles [0x80] 8 10 3 (by decide) (by decide) (by decide) (by decide)
    (by decide) (by decide)).2.1

/-! ## Claims on the PSK / DPSK handler -/

/-- C4: PSK symbol packing. For `k = bits_per_symbol` in 1..4 and frames `fs`
of width `W` (`1 ≤ W ≤ 32`), with the handler's modulus
`EVENTS_PER_PERIOD * bit_periods` non-zero as a machine word, the values of `new_bits` that `psk_timer_cb` pulls, in order, are
the `k`-bit groups of the MSB-first bit stream of all frames (group `i` holds
bits `i * k .. i * k + k - 1`, past-the-end positions read as 0, a group may
straddle two frames): on a tick that pulls, `new_bits` is the group whose
index is the number of earlier pulls, and in PSK mode that tick stores exactly
this value in `state.symbol`, where it stays until the next pull. While
`event_cnt` has not wrapped, the `i`-th pull is the tick number `i * P * 2^k`. -/
theorem psk_symbol_packing (c : Config) (fs : List Nat) (W : Nat) (hW1 : 1 ≤ W)
    (hW32 : W ≤ 32) (hk1 : 1 ≤ c.cfg_bits_per_symbol) (hk4 : c.cfg_bits_per_symbol ≤ 4)
    (hd : u32 (EVENTS_PER_PERIOD c * c.bit_periods) ≠ 0) (t : Nat) :
    psk_pulled c t (powercom_transmit_init (some fs) fs.length W) =
      (List.range (psk_pulled c t (powercom_transmit_init (some fs) fs.length W)).length).map
        (stream_symbol fs W c.cfg_bits_per_symbol) ∧
    (∃ s, psk_run c t (powercom_transmit_init (some fs) fs.length W) = some s ∧
      (psk_pulls c s = true →
        (psk_select_bits c s).2 = stream_symbol fs W c.cfg_bits_per_symbol
          (psk_pulled c t (powercom_transmit_init (some fs) fs.length W)).length ∧
        (c.cfg_modulation = Modulation.MOD_PSK →
          ∃ s1, psk_timer_cb c s = some s1 ∧ s1.symbol = (psk_select_bits c s).2)) ∧
      (c.cfg_modulation = Modulation.MOD_PSK → s.symbol =
        ((psk_pulled c t (powercom_transmit_init (some fs) fs.length W)).getLast?).getD 0)) ∧
    (∀ i, i < (fs.length * W + c.cfg_bits_per_symbol - 1) / c.cfg_bits_per_symbol →
      1 ≤ c.bit_periods → c.bit_periods * 2 ^ c.cfg_bits_per_symbol < 2 ^ 32 →
      i * (c.bit_periods * 2 ^ c.cfg_bits_per_symbol) < 2 ^ 32 →
      ∃ s, psk_run c (i * (c.bit_periods * 2 ^ c.cfg_bits_per_symbol))
          (powercom_transmit_init (some fs) fs.length W) = some s ∧
        psk_pulls c s = true ∧
        (psk_select_bits c s).2 = stream_symbol fs W c.cfg_bits_per_symbol i) := by
  have hk : c.cfg_bits_per_symbol ≤ 8 := by omega
  obtain ⟨s, hrun, _, hpl, hpsk, _⟩ := psk_run_inv c fs W hW1 hW32 hk hd t
  refine ⟨hpl, ⟨s, hrun, ?_, ?_⟩, ?_⟩
  · intro hp
    refine ⟨psk_pull_value c fs W hW1 hW32 hk hd t s hrun hp, ?_⟩
    intro hm
    have hne : c.cfg_modulation ≠ Modulation.MOD_DPSK := by rw [hm]; decide
    refine ⟨_, psk_timer_cb_pull c s hp, ?_⟩
    rw [if_neg hne]
    rfl
  · intro hm
    exact hpsk (by rw [hm]; decide)
  · intro i hi hP hdd hi32
    have hdpos : 0 < c.bit_periods * 2 ^ c.cfg_bits_per_symbol :=
      Nat.mul_pos hP (Nat.pow_pos (by decide))
    have hle : i * (c.bit_periods * 2 ^ c.cfg_bits_per_symbol) <
        (fs.length * W + c.cfg_bits_per_symbol - 1) / c.cfg_bits_per_symbol *
          (c.bit_periods * 2 ^ c.cfg_bits_per_symbol) :=
      Nat.mul_lt_mul_of_pos_right hi hdpos
    obtain ⟨s1, hrun1, _, _, hlen⟩ :=
      psk_run_nowrap c fs W hW1 hW32 hk1 hk hP hdd _ (Nat.le_of_lt hle) hi32
    obtain ⟨s2, hrun2, _, _, hiff, _⟩ :=
      psk_nowrap_pulls c fs W hW1 hW32 hk1 hk hP hdd _ (Nat.le_of_lt hle) hi32
    have hs : s2 = s1 := by
      rw [hrun1] at hrun2
      exact (Option.some.inj hrun2).symm
    subst hs
    have hp : psk_pulls c s2 = true := hiff.2 ⟨Nat.mul_mod_left _ _, hle⟩
    rw [Nat.mul_mod_left, if_pos rfl, Nat.mul_div_cancel _ hdpos, Nat.add_zero] at hlen
    refine ⟨s2, hrun1, hp, ?_⟩
    rw [psk_pull_value c fs W hW1 hW32 hk hd _ s2 hrun1 hp, hlen]

/-- Witness: 8-PSK with `P = 1` on the frames `0xAA, 0xA1` of width 8; after
41 ticks the six pulled symbols are the 3-bit groups of the 16-bit stream. -/
theorem psk_symbol_packing_witness :
    psk_pulled (Config.mk 1 Modulation.MOD_PSK 3) 41
        (powercom_transmit_init (some [0xAA, 0xA1]) ([0xAA, 0xA1] : List Nat).length 8) =
      (List.range (psk_pulled (Config.mk 1 Modulation.MOD_PSK 3) 41
        (powercom_transmit_init (some [0xAA, 0xA1])
          ([0xAA, 0xA1] : List Nat).length 8)).length).map
        (stream_symbol [0xAA, 0xA1] 8 (Config.mk 1 Modulation.MOD_PSK 3).cfg_bits_per_symbol) :=
  (psk_symbol_packing (Config.mk 1 Modulation.MOD_PSK 3) [0xAA, 0xA1] 8 (by decide)
    (by decide) (by decide) (by decide) (by decide) 41).1

/-- C5: DPSK accumulator. In DPSK mode with `k` bits per symbol (1..4) and a
non-zero modulus `EVENTS_PER_PERIOD * bit_periods`, from the state set up by
`powercom_transmit` (`symbol = 0`, frames of width `1 ≤ W ≤ 32`), after any number of
ticks `state.symbol` equals the sum of all values of `new_bits` pulled so far,
modulo `2 ^ k`; so during the `i`-th symbol it is `(s_1 + ... + s_i) mod 2^k`.
For DBPSK with `P = 10` and input symbols `[0,1,1,0]` (the frame `0b0110` of
width 4) the phase indices during the four symbols are `[0,1,0,0]`. -/
theorem dpsk_accumulator (c : Config) (fs : List Nat) (W : Nat) (hW1 : 1 ≤ W)
    (hW32 : W ≤ 32) (hk1 : 1 ≤ c.cfg_bits_per_symbol) (hk4 : c.cfg_bits_per_symbol ≤ 4)
    (hd : u32 (EVENTS_PER_PERIOD c * c.bit_periods) ≠ 0)
    (hm : c.cfg_modulation = Modulation.MOD_DPSK) (t : Nat) :
    (∃ s, psk_run c t (powercom_transmit_init (some fs) fs.length W) = some s ∧
      s.symbol = (psk_pulled c t (powercom_transmit_init (some fs) fs.length W)).sum %
        2 ^ c.cfg_bits_per_symbol) ∧
    psk_pulled (Config.mk 10 Modulation.MOD_DPSK 1) 80
      (powercom_transmit_init (some [6]) 1 4) = [0, 1, 1, 0] ∧
    (∀ u, u < 80 →
      (psk_run (Config.mk 10 Modulation.MOD_DPSK 1) (u + 1)
        (powercom_transmit_init (some [6]) 1 4)).map State.symbol =
        some (([0, 1, 0, 0] : List Nat).getD (u / 20) 0)) := by
  have hk : c.cfg_bits_per_symbol ≤ 8 := by omega
  obtain ⟨s, hrun, _, _, _, hdpsk⟩ := psk_run_inv c fs W hW1 hW32 hk hd t
  refine ⟨⟨s, hrun, hdpsk hm⟩, ?_, ?_⟩
  · decide
  · decide

/-- Witness: DQPSK with `P = 2` on the frame `0x1B` of width 8, after 9 ticks. -/
theorem dpsk_accumulator_witness :
    ∃ s, psk_run (Config.mk 2 Modulation.MOD_DPSK 2) 9
        (powercom_transmit_init (some [0x1B]) ([0x1B] : List Nat).length 8) = some s ∧
      s.symbol = (psk_pulled (Config.mk 2 Modulation.MOD_DPSK 2) 9
        (powercom_transmit_init (some [0x1B]) ([0x1B] : List Nat).length 8)).sum %
          2 ^ (Config.mk 2 Modulation.MOD_DPSK 2).cfg_bits_per_symbol :=
  (dpsk_accumulator (Config.mk 2 Modulation.MOD_DPSK 2) [0x1B] 8 (by decide) (by decide)
    (by decide) (by decide) (by decide) rfl 9).1

/-- C6: k-PSK timing. For PSK and DPSK with `k` bits per symbol (1..4),
`bit_periods = P ≥ 1` and `n` frames of width `W`, with `N = ceil (n * W / k)`
and `N * P * 2^k < 2^32` (and the handler's modulus `P * 2^k` non-zero as a
machine word, which this bound already gives when `N ≥ 1`): the queue yields
exactly `N` symbols; on each tick `t < N * P * 2^k` (0-based) `done` is false
and the handler pulls a symbol exactly when `t` is a multiple of `P * 2^k`;
`done` is still false after `N * P * 2^k` ticks and is set by the next one. -/
theorem psk_ticks_before_done (c : Config) (fs : List Nat) (W : Nat) (hW1 : 1 ≤ W)
    (hW32 : W ≤ 32) (hk1 : 1 ≤ c.cfg_bits_per_symbol) (hk4 : c.cfg_bits_per_symbol ≤ 4)
    (hP : 1 ≤ c.bit_periods)
    (hd : u32 (EVENTS_PER_PERIOD c * c.bit_periods) ≠ 0)
    (hN : (fs.length * W + c.cfg_bits_per_symbol - 1) / c.cfg_bits_per_symbol *
      c.bit_periods * 2 ^ c.cfg_bits_per_symbol < 2 ^ 32) :
    (psk_pulled c ((fs.length * W + c.cfg_bits_per_symbol - 1) / c.cfg_bits_per_symbol *
        c.bit_periods * 2 ^ c.cfg_bits_per_symbol)
      (powercom_transmit_init (some fs) fs.length W)).length =
      (fs.length * W + c.cfg_bits_per_symbol - 1) / c.cfg_bits_per_symbol ∧
    (∀ t, t < (fs.length * W + c.cfg_bits_per_symbol - 1) / c.cfg_bits_per_symbol *
        c.bit_periods * 2 ^ c.cfg_bits_per_symbol →
      ∃ s, psk_run c t (powercom_transmit_init (some fs) fs.length W) = some s ∧
        s.done = false ∧
        (psk_pulls c s = true ↔ t % (c.bit_periods * 2 ^ c.cfg_bits_per_symbol) = 0)) ∧
    (∃ s, psk_run c ((fs.length * W + c.cfg_bits_per_symbol - 1) / c.cfg_bits_per_symbol *
        c.bit_periods * 2 ^ c.cfg_bits_per_symbol)
      (powercom_transmit_init (some fs) fs.length W) = some s ∧ s.done = false) ∧
    (∃ s, psk_run c ((fs.length * W + c.cfg_bits_per_symbol - 1) / c.cfg_bits_per_symbol *
        c.bit_periods * 2 ^ c.cfg_bits_per_symbol + 1)
      (powercom_transmit_init (some fs) fs.length W) = some s ∧ s.done = true) := by
  have hk : c.cfg_bits_per_symbol ≤ 8 := by omega
  have hdpos : 0 < c.bit_periods * 2 ^ c.cfg_bits_per_symbol :=
    Nat.mul_pos hP (Nat.pow_pos (by decide))
  rw [Nat.mul_assoc] at hN ⊢
  by_cases hN0 : (fs.length * W + c.cfg_bits_per_symbol - 1) / c.cfg_bits_per_symbol = 0
  · rw [hN0, Nat.zero_mul]
    have hlen : ¬ 0 < fs.length * W := by
      intro hpos
      have := (symbols_lt_iff (fs.length * W) c.cfg_bits_per_symbol 0 hk1).2 (by omega)
      omega
    have hn : fs.length = 0 := by
      rcases Nat.eq_zero_or_pos fs.length with h | h
      · exact h
      · exact absurd (Nat.mul_pos h hW1) hlen
    refine ⟨rfl, ?_, ⟨_, rfl, rfl⟩, ?_⟩
    · intro t ht
      omega
    · have hend := (psk_timer_cb_end c (powercom_transmit_init (some fs) fs.length W) rfl hd
        (Nat.zero_mod _) (Or.inl hn)).1
      exact ⟨_, hend, rfl⟩
  · have hN1 : 1 ≤ (fs.length * W + c.cfg_bits_per_symbol - 1) / c.cfg_bits_per_symbol :=
      Nat.pos_of_ne_zero hN0
    have hdd : c.bit_periods * 2 ^ c.cfg_bits_per_symbol < 2 ^ 32 :=
      Nat.lt_of_le_of_lt (Nat.le_mul_of_pos_left _ hN1) hN
    have hmod := psk_modulus_eq c hdd
    obtain ⟨s, hrun, hdone, he, hlen⟩ :=
      psk_run_nowrap c fs W hW1 hW32 hk1 hk hP hdd _ (Nat.le_refl _) hN
    obtain ⟨s2, hrun2, _, _, _, hcnt⟩ :=
      psk_nowrap_pulls c fs W hW1 hW32 hk1 hk hP hdd _ (Nat.le_refl _) hN
    have hs : s2 = s := by
      rw [hrun] at hrun2
      exact (Option.some.inj hrun2).symm
    subst hs
    rw [Nat.mul_mod_left, if_pos rfl, Nat.mul_div_cancel _ hdpos, Nat.add_zero] at hlen
    refine ⟨hlen, ?_, ⟨s2, hrun, hdone⟩, ?_⟩
    · intro t ht
      obtain ⟨s3, hrun3, hdone3, _, hiff, _⟩ :=
        psk_nowrap_pulls c fs W hW1 hW32 hk1 hk hP hdd t (Nat.le_of_lt ht) (by omega)
      refine ⟨s3, hrun3, hdone3, ?_⟩
      rw [hiff]
      exact ⟨fun h => h.1, fun h => ⟨h, ht⟩⟩
    · have hc0 : s2.frame_cnt = 0 := hcnt.2 (by rw [hlen])
      have hend := (psk_timer_cb_end c s2 hdone hd
        (by rw [hmod, he]; exact Nat.mul_mod_left _ _) (Or.inl hc0)).1
      obtain ⟨hrun1, _⟩ := psk_run_succ c _ _ s2 hrun
      exact ⟨_, hrun1.trans hend, rfl⟩

/-- Witness: QPSK with `P = 3` on one frame of width 8: 4 symbols, 48 ticks,
`done` is set by tick 49. -/
theorem psk_ticks_before_done_witness :
    ∃ s, psk_run (Config.mk 3 Modulation.MOD_PSK 2)
        ((([0x1B] : List Nat).length * 8 +
          (Config.mk 3 Modulation.MOD_PSK 2).cfg_bits_per_symbol - 1) /
          (Config.mk 3 Modulation.MOD_PSK 2).cfg_bits_per_symbol *
          (Config.mk 3 Modulation.MOD_PSK 2).bit_periods *
          2 ^ (Config.mk 3 Modulation.MOD_PSK 2).cfg_bits_per_symbol + 1)
        (powercom_transmit_init (some [0x1B]) ([0x1B] : List Nat).length 8) = some s ∧
      s.done = true :=
  (psk_ticks_before_done (Config.mk 3 Modulation.MOD_PSK 2) [0x1B] 8 (by decide) (by decide)
    (by decide) (by decide) (by decide) (by decide) (by decide)).2.2.2

/-- C7, as stated, fails: on the first BPSK tick for the frame `0x00`
(`event_cnt = 0`, `symbol = 0`, `k = 1`) the tick does not set `done` and
`(e + phase) mod 2^k < 2^k / 2` holds, yet `load_asserted` is false after the
tick, because the handler stores `have_lock = true` in that case. -/
theorem psk_carrier_rule_counterexample :
    (psk_timer_cb (Config.mk 10 Modulation.MOD_PSK 1)
        (powercom_transmit_init (some [0]) 1 8)).map
      (fun s1 => (s1.done, load_asserted s1,
        decide ((0 + s1.symbol * 2 ^ 1 / 2 ^ 1) % 2 ^ 1 < 2 ^ 1 / 2))) =
      some (false, false, true) := by
  decide

/-- C7, amended: on every tick of `psk_timer_cb` (with `k` in 1..4 and a
non-zero modulus) that does not leave `done` set, with `e` the value of
`event_cnt` before the tick and `phase = symbol * 2^k / 2^k = symbol` for the
symbol in force after the tick, `have_lock` after the tick is true exactly when
`(e + phase) mod 2^k < 2^k / 2`; hence `load_asserted`, its negation, is true
exactly when `(e + phase) mod 2^k ≥ 2^k / 2`. -/
theorem psk_carrier_rule (c : Config) (s : State) (hk1 : 1 ≤ c.cfg_bits_per_symbol)
    (hk4 : c.cfg_bits_per_symbol ≤ 4)
    (hd : u32 (EVENTS_PER_PERIOD c * c.bit_periods) ≠ 0) :
    ∃ s1, psk_timer_cb c s = some s1 ∧
      (s1.done = false →
        s1.symbol * 2 ^ c.cfg_bits_per_symbol / 2 ^ c.cfg_bits_per_symbol = s1.symbol ∧
        (s1.have_lock = true ↔
          (s.event_cnt + s1.symbol * 2 ^ c.cfg_bits_per_symbol / 2 ^ c.cfg_bits_per_symbol) %
            2 ^ c.cfg_bits_per_symbol < 2 ^ c.cfg_bits_per_symbol / 2) ∧
        (load_asserted s1 = true ↔
          2 ^ c.cfg_bits_per_symbol / 2 ≤
            (s.event_cnt + s1.symbol * 2 ^ c.cfg_bits_per_symbol / 2 ^ c.cfg_bits_per_symbol) %
              2 ^ c.cfg_bits_per_symbol)) := by
  have hk : c.cfg_bits_per_symbol ≤ 31 := by omega
  have key : ∀ x : State, x.event_cnt = s.event_cnt →
      ((psk_generate_carrier c x).done = false →
        (psk_generate_carrier c x).symbol * 2 ^ c.cfg_bits_per_symbol /
          2 ^ c.cfg_bits_per_symbol = (psk_generate_carrier c x).symbol ∧
        ((psk_generate_carrier c x).have_lock = true ↔
          (s.event_cnt + (psk_generate_carrier c x).symbol * 2 ^ c.cfg_bits_per_symbol /
            2 ^ c.cfg_bits_per_symbol) % 2 ^ c.cfg_bits_per_symbol <
              2 ^ c.cfg_bits_per_symbol / 2) ∧
        (load_asserted (psk_generate_carrier c x) = true ↔
          2 ^ c.cfg_bits_per_symbol / 2 ≤
            (s.event_cnt + (psk_generate_carrier c x).symbol * 2 ^ c.cfg_bits_per_symbol /
              2 ^ c.cfg_bits_per_symbol) % 2 ^ c.cfg_bits_per_symbol)) := by
    intro x hx _
    have hl : (psk_generate_carrier c x).have_lock = psk_carrier c x := rfl
    have hsy : (psk_generate_carrier c x).symbol = x.symbol := rfl
    unfold load_asserted
    rw [hl, hsy, psk_carrier_eq c x hk, hx]
    refine ⟨Nat.mul_div_cancel _ (Nat.pow_pos (by decide)), ?_, ?_⟩
    · simp
    · simp
  cases hdone : s.done
  · by_cases hb : s.event_cnt % u32 (EVENTS_PER_PERIOD c * c.bit_periods) = 0
    · by_cases hq : s.frame_cnt = 0 ∨ s.frames = none
      · refine ⟨_, (psk_timer_cb_end c s hdone hd hb hq).1, ?_⟩
        intro h
        exact Bool.noConfusion h
      · have hq2 : s.frame_cnt ≠ 0 ∧ s.frames ≠ none :=
          ⟨fun h => hq (Or.inl h), fun h => hq (Or.inr h)⟩
        have hp := psk_pulls_of c s hdone hd hb hq2.1 hq2.2
        refine ⟨_, psk_timer_cb_pull c s hp, key _ ?_⟩
        have hev : (psk_select_bits c s).1.event_cnt = s.event_cnt :=
          (psk_select_bit_iterate_fields s 0 c.cfg_bits_per_symbol).1
        by_cases hm : c.cfg_modulation = Modulation.MOD_DPSK
        · rw [if_pos hm]; exact hev
        · rw [if_neg hm]; exact hev
    · exact ⟨_, (psk_timer_cb_between c s hdone hd hb).1, key s rfl⟩
  · refine ⟨s, (psk_timer_cb_done c s hdone).1, ?_⟩
    intro h
    rw [hdone] at h
    exact Bool.noConfusion h

/-- Witness: a QPSK tick in the middle of a symbol, `event_cnt = 5`,
`symbol = 3`. -/
theorem psk_carrier_rule_witness :
    ∃ s1, psk_timer_cb (Config.mk 10 Modulation.MOD_PSK 2)
        (State.mk true false (some [0x1B]) 1 8 0x20 3 5) = some s1 ∧
      (s1.done = false →
        s1.symbol * 2 ^ 2 / 2 ^ 2 = s1.symbol ∧
        (s1.have_lock = true ↔ (5 + s1.symbol * 2 ^ 2 / 2 ^ 2) % 2 ^ 2 < 2 ^ 2 / 2) ∧
        (load_asserted s1 = true ↔ 2 ^ 2 / 2 ≤ (5 + s1.symbol * 2 ^ 2 / 2 ^ 2) % 2 ^ 2)) :=
  psk_carrier_rule (Config.mk 10 Modulation.MOD_PSK 2)
    (State.mk true false (some [0x1B]) 1 8 0x20 3 5) (by decide) (by decide) (by decide)

/-- C10, as stated, fails: the ASK tick and the PSK tick that find no frames
remaining set `done`, but they store `have_lock = false`, so `load_asserted`
(the negation of `have_lock`) is true after them, not false. Shown on the
transmission of a single frame of width 1 with `P = 10`: 20 ticks send the
bit, tick 21 finds the queue empty. -/
theorem end_of_transmission_counterexample :
    (ask_run 10 20 (powercom_transmit_init (some [1]) 1 1)).done = false ∧
    (ask_run 10 21 (powercom_transmit_init (some [1]) 1 1)).done = true ∧
    load_asserted (ask_run 10 21 (powercom_transmit_init (some [1]) 1 1)) = true ∧
    (psk_run (Config.mk 10 Modulation.MOD_PSK 1) 20
        (powercom_transmit_init (some [1]) 1 1)).map State.done = some false ∧
    (psk_run (Config.mk 10 Modulation.MOD_PSK 1) 21
        (powercom_transmit_init (some [1]) 1 1)).map
      (fun s1 => (s1.done, load_asserted s1)) = some (true, true) := by
  decide

/-- C10, amended: the tick of `ask_timer_cb` that finds a non-null frame
pointer and no frames remaining, and the tick of `psk_timer_cb` that finds no
frames remaining at a symbol boundary, set `done = true` and `have_lock =
false`; `load_asserted`, the negation of `have_lock`, is therefore true: the
main thread is told to release the worker mutexes. -/
theorem end_of_transmission (P : Nat) (c : Config) (s : State) :
    (s.frames ≠ none → s.frame_cnt = 0 →
      (ask_timer_cb P s).done = true ∧ (ask_timer_cb P s).have_lock = false ∧
        load_asserted (ask_timer_cb P s) = true) ∧
    (s.done = false → u32 (EVENTS_PER_PERIOD c * c.bit_periods) ≠ 0 →
      s.event_cnt % u32 (EVENTS_PER_PERIOD c * c.bit_periods) = 0 →
      (s.frame_cnt = 0 ∨ s.frames = none) →
      ∃ s1, psk_timer_cb c s = some s1 ∧ s1.done = true ∧ s1.have_lock = false ∧
        load_asserted s1 = true) := by
  constructor
  · intro hf hc
    unfold load_asserted ask_timer_cb
    simp [hf, hc]
  · intro hdone hd hb hq
    exact ⟨_, (psk_timer_cb_end c s hdone hd hb hq).1, rfl, rfl, rfl⟩

/-- Witness: the state reached when the single frame `0x41` has been sent (ASK)
and a DQPSK state at the boundary after 40 ticks with an empty queue. -/
theorem end_of_transmission_witness :
    ((ask_timer_cb 10 (State.mk true false (some []) 0 8 0x80 0 0)).done = true ∧
      (ask_timer_cb 10 (State.mk true false (some []) 0 8 0x80 0 0)).have_lock = false ∧
      load_asserted (ask_timer_cb 10 (State.mk true false (some []) 0 8 0x80 0 0)) = true) ∧
    (∃ s1, psk_timer_cb (Config.mk 10 Modulation.MOD_DPSK 2)
        (State.mk true false (some []) 0 8 0x80 0 40) = some s1 ∧
      s1.done = true ∧ s1.have_lock = false ∧ load_asserted s1 = true) :=
  ⟨(end_of_transmission 10 (Config.mk 10 Modulation.MOD_DPSK 2)
      (State.mk true false (some []) 0 8 0x80 0 0)).1 (by decide) (by decide),
   (end_of_transmission 10 (Config.mk 10 Modulation.MOD_DPSK 2)
      (State.mk true false (some []) 0 8 0x80 0 40)).2 (by decide) (by decide) (by decide)
      (by decide)⟩

/-! ## Claims on the RS-232 and raw encoders and the packet length limit -/

theorem rs232_frame_eq (x : Nat) :
    rs232_frame x = (1 <<< 8) ||| ((x &&& 0x7F) <<< 1) := by
  have hy : x &&& 0x7F < 128 := Nat.lt_of_le_of_lt Nat.and_le_right (by decide)
  have hall : ∀ y, y < 128 →
      u32 (u32 (u32 (0x1 <<< 7) ||| y) <<< 1) = (1 <<< 8) ||| (y <<< 1) := by
    decide
  exact hall _ hy

/-- C11: RS-232 framing. For every byte sequence `b`, `send_buf_rs232` (when
its allocation succeeds) calls `powercom_transmit` with `|b|` frames of width
exactly 9, frame `i` being `(1 << 8) | ((b[i] & 0x7F) << 1)`: bit 8 is 1, bit 0
is 0, bits 7..1 are bits 6..0 of `b[i]` in the same order, and no bit above
bit 8 is set; for `b = [0x55]` the single frame is `0x1AA`. -/
theorem send_buf_rs232_frames (b : List Nat) :
    send_buf_rs232 true b =
      SendOutcome.transmit (b.map (fun x => (1 <<< 8) ||| ((x &&& 0x7F) <<< 1))) b.length 9 ∧
    (∀ x, rs232_frame x = (1 <<< 8) ||| ((x &&& 0x7F) <<< 1) ∧
      (rs232_frame x).testBit 8 = true ∧ (rs232_frame x).testBit 0 = false ∧
      (∀ j, j < 7 → (rs232_frame x).testBit (j + 1) = x.testBit j) ∧
      (∀ j, 8 < j → (rs232_frame x).testBit j = false)) ∧
    send_buf_rs232 true [0x55] = SendOutcome.transmit [0x1AA] 1 9 := by
  have hbits : ∀ x j, ((1 <<< 8) ||| ((x &&& 0x7F) <<< 1)).testBit j =
      (decide (8 = j) || (decide (1 ≤ j) && (x.testBit (j - 1) && decide (j - 1 < 7)))) := by
    intro x j
    have h256 : (1 <<< 8 : Nat) = 2 ^ 8 := by decide
    have h127 : (0x7F : Nat) = 2 ^ 7 - 1 := by decide
    rw [h256, h127, Nat.testBit_or, Nat.testBit_two_pow, Nat.testBit_shiftLeft,
      Nat.testBit_and, Nat.testBit_two_pow_sub_one]
  refine ⟨?_, ?_, ?_⟩
  · unfold send_buf_rs232
    have hmap : b.map rs232_frame = b.map (fun x => (1 <<< 8) ||| ((x &&& 0x7F) <<< 1)) :=
      List.map_congr_left (fun x _ => rs232_frame_eq x)
    rw [hmap]
    simp [FRAME_LEN, BITS_PER_FRAME, STOP_BITS]
  · intro x
    refine ⟨rs232_frame_eq x, ?_, ?_, ?_, ?_⟩
    · rw [rs232_frame_eq, hbits]; simp
    · rw [rs232_frame_eq, hbits]; simp
    · intro j hj
      rw [rs232_frame_eq, hbits]
      have h8 : ¬ 8 = j + 1 := by omega
      simp [h8, hj]
    · intro j hj
      rw [rs232_frame_eq, hbits]
      have h8 : ¬ 8 = j := by omega
      have h7 : ¬ j - 1 < 7 := by omega
      simp [h8, h7]
  · decide

/-- Witness: bit 3 of the frame of the byte `0x55` is bit 2 of the byte. -/
theorem send_buf_rs232_frames_witness :
    (rs232_frame 0x55).testBit (2 + 1) = (0x55 : Nat).testBit 2 :=
  ((send_buf_rs232_frames [0x55]).2.1 0x55).2.2.2.1 2 (by decide)

/-- C13: packet length limit. `send_buf_packet` stops at its failed length
assertion (the rejection of the length argument) if and only if `|b| > 255`,
and for such `b` it never calls `powercom_transmit`, whatever the arguments. -/
theorem send_buf_packet_length_limit (calloc_ok : Bool) (b : List Nat) :
    (send_buf_packet calloc_ok b = SendOutcome.assert_failed ↔ 255 < b.length) ∧
    (255 < b.length →
      ∀ fs n w, send_buf_packet calloc_ok b ≠ SendOutcome.transmit fs n w) := by
  have hgt : 255 < b.length → send_buf_packet calloc_ok b = SendOutcome.assert_failed := by
    intro h
    unfold send_buf_packet
    simp only
    rw [if_pos (by omega)]
  refine ⟨⟨?_, hgt⟩, ?_⟩
  · intro h
    by_contra hle
    unfold send_buf_packet at h
    simp only at h
    rw [if_neg (by omega)] at h
    cases calloc_ok <;> simp at h
  · intro h fs n w heq
    rw [hgt h] at heq
    exact SendOutcome.noConfusion heq

/-- Witness: 256 zero bytes are rejected and never transmitted. -/
theorem send_buf_packet_length_limit_witness :
    send_buf_packet true (List.replicate 256 0) = SendOutcome.assert_failed ∧
    (∀ fs n w, send_buf_packet true (List.replicate 256 0) ≠ SendOutcome.transmit fs n w) :=
  ⟨(send_buf_packet_length_limit true (List.replicate 256 0)).1.2
      (by rw [List.length_replicate]; exact Nat.lt_succ_self 255),
   (send_buf_packet_length_limit true (List.replicate 256 0)).2
      (by rw [List.length_replicate]; exact Nat.lt_succ_self 255)⟩

theorem bits_value_byte (x : Nat) (hx : x < 256) :
    bits_value ((List.range 8).map (fun j => x.testBit (7 - j))) = x := by
  have hr : List.range 8 = [0, 1, 2, 3, 4, 5, 6, 7] := by decide
  rw [hr]
  simp only [bits_value, List.map, List.foldl, Nat.toNat_testBit]
  norm_num
  omega

theorem bit_stream_chunk (b : List Nat) (i : Nat) (hi : i < b.length) :
    ((bit_stream b 8).drop (i * 8)).take 8 =
      (List.range 8).map (fun j => (b.getD i 0).testBit (7 - j)) := by
  have hlen : (bit_stream b 8).length = b.length * 8 := by simp [bit_stream]
  apply List.ext_getElem
  · simp only [List.length_take, List.length_drop, hlen, List.length_map, List.length_range]
    omega
  · intro j hj1 hj2
    have hj : j < 8 := by simpa using hj2
    have hd : (i * 8 + j) / 8 = i := by omega
    have hm : 8 - 1 - (i * 8 + j) % 8 = 7 - j := by omega
    have hlt : i * 8 + j < b.length * 8 := by omega
    simp only [List.getElem_take, List.getElem_drop, List.getElem_map, List.getElem_range,
      bit_stream, stream_bit, hd, hm, hlt, decide_True, Bool.true_and]

/-- C12: raw encoder round trip. For every byte sequence `b` (every element
below 256), `send_buf_raw` (when its allocation succeeds) calls
`powercom_transmit` with the `|b|` frames `b` themselves, width 8, and decoding
the MSB-first bit stream of those frames in groups of 8 bits yields `b` again. -/
theorem send_buf_raw_round_trip (b : List Nat) (hb : ∀ x, x ∈ b → x < 256) :
    send_buf_raw true b = SendOutcome.transmit b b.length 8 ∧
    decode_bits 8 (bit_stream b 8) = b := by
  constructor
  · unfold send_buf_raw
    simp
  · have hlen : (bit_stream b 8).length = b.length * 8 := by simp [bit_stream]
    unfold decode_bits
    rw [hlen, Nat.mul_div_cancel _ (by decide : 0 < 8)]
    apply List.ext_getElem
    · simp
    · intro i h1 h2
      simp only [List.getElem_map, List.getElem_range]
      rw [bit_stream_chunk b i h2]
      have hget : b.getD i 0 = b[i] := by
        simp [List.getD_eq_getElem?_getD, List.getElem?_eq_getElem h2]
      rw [hget]
      exact bits_value_byte _ (hb _ (List.getElem_mem h2))

/-- Witness: the bytes `0x41, 0x00, 0xFF`. -/
theorem send_buf_raw_round_trip_witness :
    send_buf_raw true [0x41, 0x00, 0xFF] =
        SendOutcome.transmit [0x41, 0x00, 0xFF] ([0x41, 0x00, 0xFF] : List Nat).length 8 ∧
      decode_bits 8 (bit_stream [0x41, 0x00, 0xFF] 8) = [0x41, 0x00, 0xFF] :=
  send_buf_raw_round_trip [0x41, 0x00, 0xFF] (by decide)

/-! ## Claims on the timer intervals and on `done` -/

/-- C14: transmit timer interval. For every carrier frequency `F ≥ 1` and
`k = bits_per_symbol` in 1..4, `powercom_transmit` programs a period of 0 s
plus `(10^9 / F) / 2` ns for ASK and `(10^9 / F) / 2^k` ns for PSK and DPSK;
these are `10^9 / (2 * F)` and `10^9 / (F * 2^k)` in whole-number division,
and the nanosecond field is always below `10^9`. -/
theorem powercom_transmit_interval_value (c : Config) (F : Nat) (hF : 1 ≤ F)
    (hk1 : 1 ≤ c.cfg_bits_per_symbol) (hk4 : c.cfg_bits_per_symbol ≤ 4) :
    (c.cfg_modulation = Modulation.MOD_ASK →
      powercom_transmit_interval c F = (0, 10 ^ 9 / F / 2) ∧
      10 ^ 9 / F / 2 = 10 ^ 9 / (2 * F)) ∧
    (c.cfg_modulation = Modulation.MOD_PSK ∨ c.cfg_modulation = Modulation.MOD_DPSK →
      powercom_transmit_interval c F = (0, 10 ^ 9 / F / 2 ^ c.cfg_bits_per_symbol) ∧
      10 ^ 9 / F / 2 ^ c.cfg_bits_per_symbol = 10 ^ 9 / (F * 2 ^ c.cfg_bits_per_symbol)) ∧
    (powercom_transmit_interval c F).1 = 0 ∧
    (powercom_transmit_interval c F).2 < 10 ^ 9 := by
  have hsec : SEC_AS_NSEC = 10 ^ 9 := by decide
  have hle : 10 ^ 9 / F ≤ 10 ^ 9 := Nat.div_le_self _ _
  have hpow : 2 ≤ 2 ^ c.cfg_bits_per_symbol := by
    calc 2 = 2 ^ 1 := rfl
      _ ≤ 2 ^ c.cfg_bits_per_symbol := Nat.pow_le_pow_right (by decide) hk1
  have hpsk : 10 ^ 9 / F / 2 ^ c.cfg_bits_per_symbol < 10 ^ 9 := by
    have h1 : 10 ^ 9 / F / 2 ^ c.cfg_bits_per_symbol ≤ 10 ^ 9 / F / 2 :=
      Nat.div_le_div_left hpow (by decide)
    omega
  have hask : 10 ^ 9 / F / 2 < 10 ^ 9 := by omega
  refine ⟨?_, ?_, ?_, ?_⟩
  · intro hm
    constructor
    · simp [powercom_transmit_interval, hm, HZ_TO_NSEC, hsec]
    · rw [Nat.div_div_eq_div_mul, Nat.mul_comm]
  · intro hm
    constructor
    · rcases hm with hm | hm <;>
        simp [powercom_transmit_interval, hm, HZ_TO_NSEC, hsec, EVENTS_PER_PERIOD,
          Nat.one_shiftLeft]
    · rw [Nat.div_div_eq_div_mul]
  · cases hm : c.cfg_modulation <;> simp [powercom_transmit_interval, hm]
  · cases hm : c.cfg_modulation <;>
      simp only [powercom_transmit_interval, hm, HZ_TO_NSEC, hsec, EVENTS_PER_PERIOD,
        Nat.one_shiftLeft]
    · exact hask
    · exact hpsk
    · exact hpsk

/-- Witness: QPSK at the default carrier of 30 Hz gives 8333333 ns. -/
theorem powercom_transmit_interval_value_witness :
    powercom_transmit_interval (Config.mk 10 Modulation.MOD_PSK 2) 30 =
      (0, 10 ^ 9 / 30 / 2 ^ (Config.mk 10 Modulation.MOD_PSK 2).cfg_bits_per_symbol) :=
  ((powercom_transmit_interval_value (Config.mk 10 Modulation.MOD_PSK 2) 30 (by decide)
    (by decide) (by decide)).2.1 (Or.inl rfl)).1

theorem ask_timer_cb_done (P : Nat) (s : State) (h : s.done = true) :
    (ask_timer_cb P s).done = true := by
  by_cases hf : s.frames = none
  · unfold ask_timer_cb
    cases hl : s.have_lock <;> simp [hf, hl, h]
  · by_cases hc : s.frame_cnt = 0
    · unfold ask_timer_cb
      simp [hf, hc]
    · rw [ask_timer_cb_data P s hf hc]
      split
      · rw [(next_bit_fields _).2.1]; exact h
      · exact h

/-- C15: `done` is monotonic. In every modulator state with `done` true, one
further tick of `ask_timer_cb` leaves `done` true and one further tick of
`psk_timer_cb` returns at once with the state unchanged, so `done` stays true;
the initialisation at the start of `powercom_transmit` sets it to false. -/
theorem done_monotonic (P : Nat) (c : Config) (s : State) (h : s.done = true) :
    (ask_timer_cb P s).done = true ∧
    psk_timer_cb c s = some s ∧
    (∀ s1, psk_timer_cb c s = some s1 → s1.done = true) ∧
    (∀ fr n w, (powercom_transmit_init fr n w).done = false) := by
  have hpsk := (psk_timer_cb_done c s h).1
  refine ⟨ask_timer_cb_done P s h, hpsk, ?_, fun _ _ _ => rfl⟩
  intro s1 h1
  rw [hpsk] at h1
  rw [← Option.some.inj h1]
  exact h

/-- Witness: the state in which ASK has just finished a one-frame transmission. -/
theorem done_monotonic_witness :
    (ask_timer_cb 10 (State.mk false true (some []) 0 8 0x80 0 0)).done = true ∧
    psk_timer_cb (Config.mk 10 Modulation.MOD_PSK 1)
      (State.mk false true (some []) 0 8 0x80 0 0) =
      some (State.mk false true (some []) 0 8 0x80 0 0) :=
  ⟨(done_monotonic 10 (Config.mk 10 Modulation.MOD_PSK 1)
      (State.mk false true (some []) 0 8 0x80 0 0) rfl).1,
   (done_monotonic 10 (Config.mk 10 Modulation.MOD_PSK 1)
      (State.mk false true (some []) 0 8 0x80 0 0) rfl).2.1⟩

/-- C17: receiver timer interval. For every accepted sample rate `R ≥ 1`,
`apc_ups_logger` programs a period of 1 s + 0 ns when `R = 1` and of
0 s + `10^9 / R` ns (whole-number division) when `R > 1`; the nanosecond field
is always below `10^9`. -/
theorem logger_timer_interval_value (R : Nat) (hR : 1 ≤ R) :
    (R = 1 → logger_timer_interval R = (1, 0)) ∧
    (1 < R → logger_timer_interval R = (0, 10 ^ 9 / R)) ∧
    (logger_timer_interval R).2 < 10 ^ 9 := by
  have hsec : u32 SEC_AS_NSEC = 10 ^ 9 := by decide
  have hgt : 1 < R → logger_timer_interval R = (0, 10 ^ 9 / R) := by
    intro h
    unfold logger_timer_interval
    rw [if_pos h, hsec]
  refine ⟨?_, hgt, ?_⟩
  · intro h
    subst h
    rfl
  · by_cases h : 1 < R
    · rw [hgt h]
      exact Nat.div_lt_self (by decide) h
    · have h1 : R = 1 := by omega
      subst h1
      decide

/-- Witness: the default rate of 90 Hz gives 11111111 ns. -/
theorem logger_timer_interval_value_witness :
    logger_timer_interval 90 = (0, 10 ^ 9 / 90) :=
  (logger_timer_interval_value 90 (by decide)).2.1 (by decide)

/-! ## Claims on the core count, the sampler loop and the carrier inversion -/

theorem to_int_of_range (v : Int) (h0 : -(2 ^ 31) ≤ v) (h1 : v < 2 ^ 31) : to_int v = v := by
  unfold to_int
  norm_num at h0 h1 ⊢
  omega

theorem to_int_range (v : Int) : -(2 ^ 31) ≤ to_int v ∧ to_int v < 2 ^ 31 := by
  unfold to_int
  norm_num
  omega

/-- C16, as stated, fails: the parser accepts `-C 0` (it only rejects negative
values), and the core count then stays 0, below the claimed lower bound 1. -/
theorem main_core_cnt_counterexample :
    main_core_cnt (some (CoreArg.num 0)) 8 = some 0 := by
  decide

/-- C16, amended: whenever `main` gets past option parsing and core-count
determination, the core count `r` it passes on satisfies `0 ≤ r ≤ 32`; it
satisfies `1 ≤ r` when there is no `-C` option or the argument is `all`, and
for a decimal argument it is the value returned by `strtol`, converted to
`int`, capped at 32, so it is at least 1 exactly when that `int` is. Every
decimal `0 ≤ v < 2^31` is accepted and gives `min v 32`, which is at least 1
for `1 ≤ v < 2^31` and 0 for `-C 0`; a larger decimal whose conversion to
`int` is 0, such as 4294967296, is accepted as well and gives 0. -/
theorem main_core_cnt_bounds (arg : Option CoreArg) (nprocessors_onln : Int) :
    (∀ r, main_core_cnt arg nprocessors_onln = some r →
      0 ≤ r ∧ r ≤ 32 ∧
      ((arg = none ∨ arg = some CoreArg.all) → 1 ≤ r) ∧
      (∀ v, arg = some (CoreArg.num v) → r = min (to_int v) 32 ∧ (1 ≤ r ↔ 1 ≤ to_int v))) ∧
    (∀ v : Int, 0 ≤ v → v < 2 ^ 31 →
      main_core_cnt (some (CoreArg.num v)) nprocessors_onln = some (min v 32)) ∧
    (∀ v : Int, 1 ≤ v → v < 2 ^ 31 →
      ∃ r, main_core_cnt (some (CoreArg.num v)) nprocessors_onln = some r ∧
        r = min v 32 ∧ 1 ≤ r) ∧
    main_core_cnt (some (CoreArg.num 0)) nprocessors_onln = some 0 ∧
    main_core_cnt (some (CoreArg.num 4294967296)) nprocessors_onln = some 0 := by
  have hdet : ∀ n : Int, 0 ≤ n →
      determine_core_cnt n nprocessors_onln = some (min n 32) := by
    intro n hn
    unfold determine_core_cnt MAX_THREADS
    rw [if_neg (by omega)]
    simp only [Option.map_some']
    by_cases h32 : n > 32
    · rw [if_pos h32, min_eq_right (by omega)]
    · rw [if_neg h32, min_eq_left (by omega)]
  have hall : ∀ r, determine_core_cnt (-1) nprocessors_onln = some r → 1 ≤ r ∧ r ≤ 32 := by
    intro r hr
    unfold determine_core_cnt MAX_THREADS at hr
    rw [if_pos (by decide)] at hr
    by_cases h1 : to_int nprocessors_onln < 1
    · rw [if_pos h1] at hr
      exact Option.noConfusion hr
    · rw [if_neg h1] at hr
      simp only [Option.map_some'] at hr
      have hr2 := Option.some.inj hr
      by_cases h32 : to_int nprocessors_onln > 32
      · rw [if_pos h32] at hr2; omega
      · rw [if_neg h32] at hr2; omega
  have hacc : ∀ v : Int, 0 ≤ v → v < 2 ^ 31 →
      main_core_cnt (some (CoreArg.num v)) nprocessors_onln = some (min v 32) := by
    intro v h0 h1
    have hv : to_int v = v := to_int_of_range v (by omega) h1
    show (if to_int v < 0 then none else some (to_int v)).bind
      (fun n => determine_core_cnt n nprocessors_onln) = some (min v 32)
    rw [hv, if_neg (by omega)]
    exact hdet v h0
  refine ⟨?_, hacc, ?_, ?_, ?_⟩
  · intro r hr
    cases arg with
    | none =>
      have h := hall r hr
      refine ⟨by omega, h.2, fun _ => h.1, ?_⟩
      intro v hv
      exact Option.noConfusion hv
    | some a =>
      cases a with
      | all =>
        have h := hall r hr
        refine ⟨by omega, h.2, fun _ => h.1, ?_⟩
        intro v hv
        exact CoreArg.noConfusion (Option.some.inj hv)
      | num w =>
        have hr2 : (if to_int w < 0 then none else some (to_int w)).bind
            (fun n => determine_core_cnt n nprocessors_onln) = some r := hr
        by_cases hneg : to_int w < 0
        · rw [if_pos hneg] at hr2
          exact Option.noConfusion hr2
        · rw [if_neg hneg] at hr2
          have hr3 : determine_core_cnt (to_int w) nprocessors_onln = some r := hr2
          rw [hdet _ (by omega)] at hr3
          have hr4 := Option.some.inj hr3
          refine ⟨by omega, by omega, ?_, ?_⟩
          · intro h
            rcases h with h | h
            · exact Option.noConfusion h
            · exact CoreArg.noConfusion (Option.some.inj h)
          · intro v hv
            have hvw : w = v := CoreArg.num.inj (Option.some.inj hv)
            subst hvw
            exact ⟨hr4.symm, by omega⟩
  · intro v h1 h2
    refine ⟨min v 32, hacc v (by omega) h2, rfl, ?_⟩
    omega
  · exact hacc 0 (by decide) (by decide)
  · have hv : to_int 4294967296 = 0 := by decide
    show (if to_int 4294967296 < 0 then none else some (to_int 4294967296)).bind
      (fun n => determine_core_cnt n nprocessors_onln) = some 0
    rw [hv, if_neg (by decide)]
    exact hdet 0 (by decide)

/-- Witness: `-C 4` on an 8-core machine gives 4 cores, `-C 40` gives 32. -/
theorem main_core_cnt_bounds_witness :
    (0 ≤ (4 : Int) ∧ (4 : Int) ≤ 32) ∧
    main_core_cnt (some (CoreArg.num 40)) 8 = some (min 40 32) :=
  ⟨⟨((main_core_cnt_bounds (some (CoreArg.num 4)) 8).1 4 (by decide)).1,
    ((main_core_cnt_bounds (some (CoreArg.num 4)) 8).1 4 (by decide)).2.1⟩,
   (main_core_cnt_bounds (some (CoreArg.num 40)) 8).2.1 40 (by decide) (by decide)⟩

theorem sampler_run_cnt (cfg_binary : Bool) (R n : Nat) (hn : n < 2 ^ 31) :
    (sampler_run cfg_binary R n).1 = n := by
  induction n with
  | zero => rfl
  | succ n ih =>
    have h := ih (by omega)
    show to_int ((sampler_run cfg_binary R n).1 + 1) = ((n + 1 : Nat) : Int)
    rw [h]
    have hlt : ((n : Int) + 1) < 2 ^ 31 := by
      have : ((n + 1 : Nat) : Int) < ((2 ^ 31 : Nat) : Int) := Int.ofNat_lt.2 hn
      simpa using this
    rw [to_int_of_range _ (by omega) hlt]
    simp

/-- C18: receiver flush cadence. In binary mode at sample rate `R ≥ 1`, the
sampler loop flushes the output stream after writing the `n`-th sample
(`n ≥ 1`, within the range of the `int` counter `sample_cnt`) if and only if
`n` is a multiple of `R`; in text mode it never does. At `R = 90`, among the
first 200 samples exactly the 90th and the 180th are followed by a flush. -/
theorem sampler_flush_cadence (R n : Nat) (hR : 1 ≤ R) (hn1 : 1 ≤ n) (hn : n < 2 ^ 31) :
    (sampler_run true R n).1 = n ∧
    ((sampler_run true R n).2 = true ↔ n % R = 0) ∧
    (sampler_run false R n).2 = false ∧
    (List.range 201).filter (fun m => (sampler_run true 90 m).2) = [90, 180] := by
  refine ⟨sampler_run_cnt true R n hn, ?_, ?_, ?_⟩
  · obtain ⟨m, rfl⟩ : ∃ m, n = m + 1 := ⟨n - 1, by omega⟩
    have hc := sampler_run_cnt true R (m + 1) hn
    have hc2 : to_int ((sampler_run true R m).1 + 1) = ((m + 1 : Nat) : Int) := hc
    show (true && to_unsigned (to_int ((sampler_run true R m).1 + 1)) % R == 0) = true ↔ _
    rw [hc2]
    have hu : to_unsigned ((m + 1 : Nat) : Int) = m + 1 := by
      unfold to_unsigned
      norm_num at hn ⊢
      omega
    rw [hu]
    simp
  · obtain ⟨m, rfl⟩ : ∃ m, n = m + 1 := ⟨n - 1, by omega⟩
    rfl
  · decide

/-- Witness: at 90 Hz the 180th sample is followed by a flush. -/
theorem sampler_flush_cadence_witness :
    (sampler_run true 90 180).2 = true ↔ 180 % 90 = 0 :=
  (sampler_flush_cadence 90 180 (by decide) (by decide) (by decide)).2.1

/-- C19: PSK carrier inversion. For every `k` in 1..4, every symbol and every
value of the tick counter, the carrier level that `psk_timer_cb` computes for
the symbol `(s + 2^(k-1)) mod 2^k` is the negation of the level it computes for
the symbol `s` at the same counter value, and so is the `load_asserted` it
commands. For DBPSK with `P = 10` and input `[0,1,1,0]` the level after each
tick of the second symbol is the negation of the level after the
corresponding tick of the first symbol. -/
theorem psk_carrier_inversion (c : Config) (x : State) (hk1 : 1 ≤ c.cfg_bits_per_symbol)
    (hk4 : c.cfg_bits_per_symbol ≤ 4) :
    psk_carrier c { x with
        symbol := (x.symbol + 2 ^ (c.cfg_bits_per_symbol - 1)) % 2 ^ c.cfg_bits_per_symbol } =
      !psk_carrier c x ∧
    load_asserted (psk_generate_carrier c { x with
        symbol := (x.symbol + 2 ^ (c.cfg_bits_per_symbol - 1)) % 2 ^ c.cfg_bits_per_symbol }) =
      !load_asserted (psk_generate_carrier c x) ∧
    (∀ u, u < 20 →
      (psk_run (Config.mk 10 Modulation.MOD_DPSK 1) (u + 21)
        (powercom_transmit_init (some [6]) 1 4)).map State.have_lock =
      (psk_run (Config.mk 10 Modulation.MOD_DPSK 1) (u + 1)
        (powercom_transmit_init (some [6]) 1 4)).map (fun s => !s.have_lock)) := by
  have hk : c.cfg_bits_per_symbol ≤ 31 := by omega
  have hinv : psk_carrier c { x with
        symbol := (x.symbol + 2 ^ (c.cfg_bits_per_symbol - 1)) % 2 ^ c.cfg_bits_per_symbol } =
      !psk_carrier c x := by
    rw [psk_carrier_eq c _ hk, psk_carrier_eq c x hk]
    simp only [Nat.mul_div_cancel _ (Nat.pow_pos (by decide : 0 < 2))]
    rw [← decide_not]
    apply decide_eq_decide.2
    generalize x.event_cnt = e
    generalize x.symbol = sy
    obtain ⟨P, m, k⟩ := c
    simp only at hk1 hk4 ⊢
    interval_cases k <;> simp only [Nat.reducePow, Nat.reduceSub, Nat.reduceDiv] <;> omega
  refine ⟨hinv, ?_, ?_⟩
  · show (!psk_carrier c _) = !(!psk_carrier c x)
    rw [hinv]
  · decide

/-- Witness: QPSK, symbol 1 against symbol 3 at counter value 6. -/
theorem psk_carrier_inversion_witness :
    psk_carrier (Config.mk 10 Modulation.MOD_PSK 2)
      { State.mk true false (some [0x1B]) 1 8 0x20 1 6 with
        symbol := ((State.mk true false (some [0x1B]) 1 8 0x20 1 6).symbol +
          2 ^ ((Config.mk 10 Modulation.MOD_PSK 2).cfg_bits_per_symbol - 1)) %
          2 ^ (Config.mk 10 Modulation.MOD_PSK 2).cfg_bits_per_symbol } =
      !psk_carrier (Config.mk 10 Modulation.MOD_PSK 2)
        (State.mk true false (some [0x1B]) 1 8 0x20 1 6) :=
  (psk_carrier_inversion (Config.mk 10 Modulation.MOD_PSK 2)
    (State.mk true false (some [0x1B]) 1 8 0x20 1 6) (by decide) (by decide)).1

/-! ## Claims on the ASK event counter and the 1-to-0 transition -/

theorem ask_timer_cb_end (P : Nat) (s : State) (hf : s.frames ≠ none)
    (hc : s.frame_cnt = 0) :
    ask_timer_cb P s = { s with have_lock := false, done := true } := by
  unfold ask_timer_cb
  simp [hf, hc]

theorem ask_timer_cb_end_fields (P : Nat) (s : State) (hf : s.frames ≠ none)
    (hc : s.frame_cnt = 0) (he : s.event_cnt = 0) :
    (ask_timer_cb P s).done = true ∧ (ask_timer_cb P s).event_cnt = 0 ∧
    (ask_timer_cb P s).frame_cnt = 0 ∧ (ask_timer_cb P s).frames ≠ none := by
  rw [ask_timer_cb_end P s hf hc]
  exact ⟨rfl, he, hc, hf⟩

theorem ask_run_finished (fs : List Nat) (W P : Nat) (h1 : 1 ≤ W) (h32 : W ≤ 32)
    (hP1 : 1 ≤ P) (hP : P < 2 ^ 31) (d : Nat) :
    (ask_run P (fs.length * W * (P * 2) + 1 + d)
      (powercom_transmit_init (some fs) fs.length W)).done = true ∧
    (ask_run P (fs.length * W * (P * 2) + 1 + d)
      (powercom_transmit_init (some fs) fs.length W)).event_cnt = 0 ∧
    (ask_run P (fs.length * W * (P * 2) + 1 + d)
      (powercom_transmit_init (some fs) fs.length W)).frame_cnt = 0 ∧
    (ask_run P (fs.length * W * (P * 2) + 1 + d)
      (powercom_transmit_init (some fs) fs.length W)).frames ≠ none := by
  have hT : 0 < P * 2 := by omega
  induction d with
  | zero =>
    obtain ⟨hq, he, _⟩ := ask_run_inv fs W P h1 h32 hP1 hP (fs.length * W * (P * 2))
      (Nat.le_refl _)
    rw [Nat.mul_div_cancel _ hT] at hq
    rw [Nat.mul_mod_left] at he
    have hc := (queueAt_frame_cnt h1 hq).2 (Nat.le_refl _)
    have hf : (ask_run P (fs.length * W * (P * 2))
        (powercom_transmit_init (some fs) fs.length W)).frames ≠ none := by
      rw [hq.1]; simp
    exact ask_timer_cb_end_fields P _ hf hc he
  | succ d ih =>
    obtain ⟨_, he, hc, hf⟩ := ih
    exact ask_timer_cb_end_fields P _ hf hc he

/-- C21: ASK event counter invariant. For every frame sequence `fs` (width
`1 ≤ W ≤ 32`) and every `bit_periods = P ≥ 1` (an `int`), from the state set
up by `powercom_transmit`, `event_cnt` is below `P * 2` after every tick of
`ask_timer_cb`; while the `N = n * W` bits are sent it equals the tick number
modulo `P * 2`, so it is 0 exactly after each multiple of `P * 2` ticks, and
these are the bit boundaries: after `t` ticks the cursor has consumed
`t / (P * 2)` bits. -/
theorem ask_event_cnt_invariant (fs : List Nat) (W P : Nat) (hW1 : 1 ≤ W) (hW32 : W ≤ 32)
    (hP1 : 1 ≤ P) (hP : P < 2 ^ 31) :
    (∀ t, (ask_run P t (powercom_transmit_init (some fs) fs.length W)).event_cnt < P * 2) ∧
    (∀ t, t ≤ fs.length * W * (P * 2) →
      (ask_run P t (powercom_transmit_init (some fs) fs.length W)).event_cnt = t % (P * 2) ∧
      ((ask_run P t (powercom_transmit_init (some fs) fs.length W)).event_cnt = 0 ↔
        t % (P * 2) = 0) ∧
      (ask_run P t (powercom_transmit_init (some fs) fs.length W)).frames =
        some (fs.drop (t / (P * 2) / W)) ∧
      (ask_run P t (powercom_transmit_init (some fs) fs.length W)).bit_mask =
        2 ^ (W - 1 - t / (P * 2) % W)) := by
  have hT : 0 < P * 2 := by omega
  constructor
  · intro t
    by_cases ht : t ≤ fs.length * W * (P * 2)
    · rw [(ask_run_inv fs W P hW1 hW32 hP1 hP t ht).2.1]
      exact Nat.mod_lt _ hT
    · obtain ⟨d, hd⟩ : ∃ d, t = fs.length * W * (P * 2) + 1 + d :=
        ⟨t - (fs.length * W * (P * 2) + 1), by omega⟩
      rw [hd, (ask_run_finished fs W P hW1 hW32 hP1 hP d).2.1]
      exact hT
  · intro t ht
    obtain ⟨hq, he, _⟩ := ask_run_inv fs W P hW1 hW32 hP1 hP t ht
    refine ⟨he, ?_, hq.1, hq.2.2.1⟩
    rw [he]

/-- Witness: the frame `0xA1` of width 8 with `P = 10`, after 47 ticks. -/
theorem ask_event_cnt_invariant_witness :
    (ask_run 10 47 (powercom_transmit_init (some [0xA1]) ([0xA1] : List Nat).length 8)).event_cnt
      = 47 % (10 * 2) :=
  ((ask_event_cnt_invariant [0xA1] 8 10 (by decide) (by decide) (by decide) (by decide)).2
    47 (by decide)).1

/-- While the bits are sent, `have_lock` is true after an even number of ticks
of the current bit, and after an odd number it is the negation of that bit. -/
theorem ask_run_have_lock (fs : List Nat) (W P : Nat) (h1 : 1 ≤ W) (h32 : W ≤ 32)
    (hP1 : 1 ≤ P) (hP : P < 2 ^ 31) (t : Nat) (ht : t ≤ fs.length * W * (P * 2)) :
    (t % (P * 2) % 2 = 0 →
      (ask_run P t (powercom_transmit_init (some fs) fs.length W)).have_lock = true) ∧
    (t % (P * 2) % 2 = 1 →
      (ask_run P t (powercom_transmit_init (some fs) fs.length W)).have_lock =
        !stream_bit fs W (t / (P * 2))) := by
  have hT : 0 < P * 2 := by omega
  induction t with
  | zero =>
    constructor
    · intro _; rfl
    · intro h
      rw [Nat.zero_mod] at h
      exact absurd h (by decide)
  | succ t ih =>
    obtain ⟨hev, hod⟩ := ih (by omega)
    obtain ⟨hq, _, _⟩ := ask_run_inv fs W P h1 h32 hP1 hP t (by omega)
    have hp : t / (P * 2) < fs.length * W := (Nat.div_lt_iff_lt_mul hT).2 (by omega)
    have hb := queueAt_cur_bit h1 hq hp
    have hf : (ask_run P t (powercom_transmit_init (some fs) fs.length W)).frames ≠ none := by
      rw [hq.1]; simp
    have hc : (ask_run P t (powercom_transmit_init (some fs) fs.length W)).frame_cnt ≠ 0 := by
      intro h0
      have := (queueAt_frame_cnt h1 hq).1 h0
      omega
    have hl : (ask_run P (t + 1) (powercom_transmit_init (some fs) fs.length W)).have_lock =
        if stream_bit fs W (t / (P * 2)) then
          !(ask_run P t (powercom_transmit_init (some fs) fs.length W)).have_lock
        else true := by
      show (ask_timer_cb P _).have_lock = _
      rw [ask_timer_cb_have_lock P _ hf hc, hb]
    have hsd := succ_div_mod (P * 2) t hT
    have hlt : t % (P * 2) < P * 2 := Nat.mod_lt _ hT
    rw [hl]
    by_cases hnext : t % (P * 2) + 1 < P * 2
    · obtain ⟨hd', hm'⟩ := hsd.1 hnext
      rw [hd', hm']
      constructor
      · intro he
        rw [hod (by omega)]
        cases stream_bit fs W (t / (P * 2)) <;> rfl
      · intro ho
        rw [hev (by omega)]
        cases stream_bit fs W (t / (P * 2)) <;> rfl
    · obtain ⟨hd', hm'⟩ := hsd.2 hnext
      rw [hd', hm']
      constructor
      · intro _
        rw [hod (by omega)]
        cases stream_bit fs W (t / (P * 2)) <;> rfl
      · intro h
        rw [Nat.zero_mod] at h
        exact absurd h (by decide)

/-- At a transition into a '0' bit `j + 1`, `have_lock` is true both at the end
of bit `j` and after the first tick of bit `j + 1`. -/
theorem ask_zero_bit_entry (fs : List Nat) (W P j : Nat) (h1 : 1 ≤ W) (h32 : W ≤ 32)
    (hP1 : 1 ≤ P) (hP : P < 2 ^ 31) (hj : j + 1 < fs.length * W)
    (h0 : stream_bit fs W (j + 1) = false) :
    (ask_run P ((j + 1) * (P * 2))
      (powercom_transmit_init (some fs) fs.length W)).have_lock = true ∧
    (ask_run P ((j + 1) * (P * 2) + 1)
      (powercom_transmit_init (some fs) fs.length W)).have_lock = true := by
  have hT : 0 < P * 2 := by omega
  have hle : (j + 1) * (P * 2) + 1 ≤ fs.length * W * (P * 2) := by
    have h2 : (j + 1 + 1) * (P * 2) ≤ fs.length * W * (P * 2) := Nat.mul_le_mul_right _ hj
    rw [Nat.add_mul (j + 1) 1, Nat.one_mul] at h2
    omega
  constructor
  · refine (ask_run_have_lock fs W P h1 h32 hP1 hP _ (by omega)).1 ?_
    rw [Nat.mul_mod_left]
  · have hmod : ((j + 1) * (P * 2) + 1) % (P * 2) = 1 := by
      rw [Nat.mul_comm (j + 1), Nat.mul_add_mod]
      exact Nat.mod_eq_of_lt (by omega)
    have hdiv : ((j + 1) * (P * 2) + 1) / (P * 2) = j + 1 := by
      rw [Nat.mul_comm (j + 1), Nat.mul_add_div hT, Nat.div_eq_of_lt (by omega), Nat.add_zero]
    have h := (ask_run_have_lock fs W P h1 h32 hP1 hP _ hle).2 (by rw [hmod])
    rw [h, hdiv, h0]
    rfl

/-- C22, as stated, fails: there is no frame sequence (of width `1 ≤ W ≤ 32`,
with `bit_periods = P ≥ 1` an `int`) in which `load_asserted` changes on the
first tick of a '0' bit that immediately follows a '1' bit. -/
theorem ask_glitch_counterexample :
    ¬ ∃ (fs : List Nat) (W P j : Nat), 1 ≤ W ∧ W ≤ 32 ∧ 1 ≤ P ∧ P < 2 ^ 31 ∧
      j + 1 < fs.length * W ∧ stream_bit fs W j = true ∧ stream_bit fs W (j + 1) = false ∧
      load_asserted (ask_run P ((j + 1) * (P * 2) + 1)
        (powercom_transmit_init (some fs) fs.length W)) ≠
      load_asserted (ask_run P ((j + 1) * (P * 2))
        (powercom_transmit_init (some fs) fs.length W)) := by
  rintro ⟨fs, W, P, j, h1, h32, hP1, hP, hj, _, h0, hne⟩
  obtain ⟨ha, hb⟩ := ask_zero_bit_entry fs W P j h1 h32 hP1 hP hj h0
  apply hne
  unfold load_asserted
  rw [ha, hb]

/-- C22, amended: for every frame sequence with a 1 bit `j` immediately
followed by a 0 bit, from the state set up by `powercom_transmit`, `have_lock`
is true (`load_asserted` false) at the end of the '1' bit, because the `P * 2`
toggles of the bit are even in number; the ASK rule for the '0' bit then
forces the value that is already held, so `load_asserted` does not change on
the first tick of the '0' bit. It is shown for the frame `0b10` with `P = 10`
as well: `load_asserted` is false after tick 20 and after tick 21. -/
theorem ask_no_glitch (fs : List Nat) (W P j : Nat) (hW1 : 1 ≤ W) (hW32 : W ≤ 32)
    (hP1 : 1 ≤ P) (hP : P < 2 ^ 31) (hj : j + 1 < fs.length * W)
    (hone : stream_bit fs W j = true) (hzero : stream_bit fs W (j + 1) = false) :
    load_asserted (ask_run P ((j + 1) * (P * 2))
      (powercom_transmit_init (some fs) fs.length W)) = false ∧
    load_asserted (ask_run P ((j + 1) * (P * 2) + 1)
      (powercom_transmit_init (some fs) fs.length W)) =
    load_asserted (ask_run P ((j + 1) * (P * 2))
      (powercom_transmit_init (some fs) fs.length W)) ∧
    load_asserted (ask_run 10 20 (powercom_transmit_init (some [2]) 1 2)) = false ∧
    load_asserted (ask_run 10 21 (powercom_transmit_init (some [2]) 1 2)) = false := by
  obtain ⟨ha, hb⟩ := ask_zero_bit_entry fs W P j hW1 hW32 hP1 hP hj hzero
  refine ⟨?_, ?_, ?_, ?_⟩
  · unfold load_asserted
    rw [ha]
    rfl
  · unfold load_asserted
    rw [ha, hb]
  · decide
  · decide

/-- Witness: the frame `0b10` of width 2 with `P = 10`, transition after bit 0. -/
theorem ask_no_glitch_witness :
    load_asserted (ask_run 10 ((0 + 1) * (10 * 2) + 1)
      (powercom_transmit_init (some [2]) ([2] : List Nat).length 2)) =
    load_asserted (ask_run 10 ((0 + 1) * (10 * 2))
      (powercom_transmit_init (some [2]) ([2] : List Nat).length 2)) :=
  (ask_no_glitch [2] 2 10 0 (by decide) (by decide) (by decide) (by decide) (by decide)
    (by decide) (by decide)).2.1

/-! ## Claim on the reachability of the packet length assertion -/

theorem send_buf_packet_ok (calloc_ok : Bool) (b : List Nat) (h : b.length ≤ 255) :
    send_buf_packet calloc_ok b ≠ SendOutcome.assert_failed ∧
    send_buf_packet true b =
      SendOutcome.transmit ([0xAA, 0xA1, b.length] ++ b) (3 + b.length) 8 := by
  have h1 : u32 b.length = b.length := u32_of_lt (by omega)
  have h2 : usize (2 + 1 + b.length) = 3 + b.length := by
    unfold usize
    rw [Nat.mod_eq_of_lt (by omega)]
  constructor
  · unfold send_buf_packet
    simp only
    rw [if_neg (by omega)]
    cases calloc_ok <;> simp
  · unfold send_buf_packet
    simp only [h1, h2, PREAMBLE1, PREAMBLE2]
    rw [if_neg (by omega), if_neg (by simp)]

theorem main_file_loop_length (fuel : Nat) (stream b : List Nat)
    (hb : b ∈ main_file_loop fuel stream) : b.length ≤ 16 := by
  induction fuel generalizing stream with
  | zero => simp [main_file_loop] at hb
  | succ fuel ih =>
    unfold main_file_loop at hb
    by_cases h0 : (fread MAX_PKT_LEN stream).1.length = 0
    · rw [if_pos h0] at hb
      simp at hb
    · rw [if_neg h0] at hb
      rcases List.mem_cons.1 hb with h | h
      · rw [h]
        exact List.length_take_le _ _
      · exact ih _ h

theorem main_file_loop_complete (fuel : Nat) (stream : List Nat)
    (hfuel : stream.length < fuel) : (main_file_loop fuel stream).flatten = stream := by
  induction fuel generalizing stream with
  | zero => omega
  | succ fuel ih =>
    unfold main_file_loop
    by_cases h0 : (fread MAX_PKT_LEN stream).1.length = 0
    · rw [if_pos h0]
      have hlen : (stream.take 16).length = 0 := h0
      rw [List.length_take] at hlen
      have hs : stream.length = 0 := by omega
      rw [List.length_eq_zero.1 hs]
      rfl
    · rw [if_neg h0]
      have hlen : (stream.take 16).length ≠ 0 := h0
      rw [List.length_take] at hlen
      have hdrop : (stream.drop 16).length < fuel := by
        rw [List.length_drop]
        omega
      have hrec : (main_file_loop fuel (fread MAX_PKT_LEN stream).2).flatten =
          stream.drop 16 := ih _ hdrop
      rw [List.flatten_cons, hrec]
      exact List.take_append_drop 16 stream

theorem fgets_chars_length (n : Nat) (stream : List Nat) :
    (fgets_chars n stream).1.length ≤ n := by
  induction n generalizing stream with
  | zero => simp [fgets_chars]
  | succ n ih =>
    cases stream with
    | nil => simp [fgets_chars]
    | cons ch rest =>
      unfold fgets_chars
      by_cases h : ch = 10
      · rw [if_pos h]
        simp
      · rw [if_neg h]
        have := ih rest
        simp only [List.length_cons]
        omega

theorem main_stdin_loop_length (fuel : Nat) (stream b : List Nat)
    (hb : b ∈ main_stdin_loop fuel stream) : b.length ≤ 15 := by
  induction fuel generalizing stream with
  | zero => simp [main_stdin_loop] at hb
  | succ fuel ih =>
    unfold main_stdin_loop at hb
    by_cases hs : stream = []
    · simp [fgets, hs] at hb
    · simp only [fgets, hs, if_false] at hb
      rcases List.mem_cons.1 hb with h | h
      · rw [h]
        have h1 : (send_str_arg (fgets_chars (MAX_PKT_LEN - 1) stream).1).length ≤
            (fgets_chars (MAX_PKT_LEN - 1) stream).1.length := by
          unfold send_str_arg
          rw [List.length_take]
          exact Nat.min_le_right _ _
        have h2 := fgets_chars_length (MAX_PKT_LEN - 1) stream
        have h3 : MAX_PKT_LEN - 1 = 15 := by decide
        omega
      · exact ih _ h

/-- C23: the length assertion of the packet encoder is unreachable from the
input paths of `main`. Every byte sequence that `main` passes to `send_buf`
(from the file loop, which reads chunks of at most `MAX_PKT_LEN = 16` bytes,
or from the standard-input loop, whose 16-byte buffer holds at most 15
characters; the test signal never calls `send_buf`) has length at most 16, so
with the packet encoding `assert(len <= 0xff)` does not fail and the length
frame is the true payload length, which fits the 8-bit frame. The file loop
passes on every byte of the file. -/
theorem main_packet_assert_unreachable (fuel : Nat) (src : InputSource) (calloc_ok : Bool)
    (b : List Nat) (hb : b ∈ main_send_buf_calls fuel src) :
    b.length ≤ 16 ∧
    (∀ contents, src = InputSource.stdin contents → b.length ≤ 15) ∧
    send_buf Encoding.ENC_PACKET calloc_ok b ≠ SendOutcome.assert_failed ∧
    send_buf Encoding.ENC_PACKET true b =
      SendOutcome.transmit ([0xAA, 0xA1, b.length] ++ b) (3 + b.length) 8 ∧
    b.length % 2 ^ 8 = b.length ∧
    main_send_buf_calls fuel InputSource.test_signal = [] ∧
    (∀ contents : List Nat,
      (main_send_buf_calls (contents.length + 1) (InputSource.file contents)).flatten = contents) := by
  have hlen : b.length ≤ 16 ∧ (∀ contents, src = InputSource.stdin contents → b.length ≤ 15) := by
    cases src with
    | test_signal => simp [main_send_buf_calls] at hb
    | file contents =>
      refine ⟨main_file_loop_length fuel contents b hb, ?_⟩
      intro c hc
      exact InputSource.noConfusion hc
    | stdin contents =>
      have h15 := main_stdin_loop_length fuel contents b hb
      exact ⟨by omega, fun _ _ => h15⟩
  obtain ⟨hne, hok⟩ := send_buf_packet_ok calloc_ok b (by omega)
  refine ⟨hlen.1, hlen.2, hne, hok, Nat.mod_eq_of_lt (by omega), rfl, ?_⟩
  intro contents
  exact main_file_loop_complete _ contents (Nat.lt_succ_self _)

/-- Witness: a 20-byte file is sent as a chunk of 16 and a chunk of 4 bytes;
the second chunk is a legal packet payload. -/
theorem main_packet_assert_unreachable_witness :
    ([16, 17, 18, 19] : List Nat).length ≤ 16 ∧
    send_buf Encoding.ENC_PACKET true [16, 17, 18, 19] =
      SendOutcome.transmit ([0xAA, 0xA1, ([16, 17, 18, 19] : List Nat).length] ++
        [16, 17, 18, 19]) (3 + ([16, 17, 18, 19] : List Nat).length) 8 :=
  ⟨(main_packet_assert_unreachable 3 (InputSource.file (List.range 20)) true [16, 17, 18, 19]
      (by decide)).1,
   (main_packet_assert_unreachable 3 (InputSource.file (List.range 20)) true [16, 17, 18, 19]
      (by decide)).2.2.2.1⟩

end Powercom
